import Mathlib

set_option maxHeartbeats 1000000

/-!
Verification development for the Ry language front end
(crates `ry_lexer`, `ry_ast`, `ry-parser`, `ry_parser`).

The definitions below are a shallow embedding of the Rust sources:

* `RyLexer` embeds `crates/ry_lexer/src/lib.rs` (the hand-written scanner).
  The source text is represented as the list of its characters together
  with the current byte offset `loc`; `advance` mirrors `Lexer::advance`
  (current := next, location += len_utf8(previous)), with the end-of-input
  sentinel `'\0'` arising from `headD NUL` exactly as `Chars::next()
  .unwrap_or('\0')` does in the source.  The scanner's dispatch `match`
  over `(current, next)` in `Lexer::next_token` is transcribed arm by arm
  into the classifier `dispatch`, whose result is then interpreted by
  `nextTokenD`; likewise the `match` of `Lexer::eat_escape` is transcribed
  into `classifyEscape`/`eatEscape`.  The numeric sub-scanner
  (`number.rs`) and the interner crate are not under `src/` and are
  modelled from the spec, as marked on their definitions.
* `RyExpr` embeds the precedence-climbing core of
  `crates/ry-parser/src/expression.rs`.
* `RyTypeP` embeds `crates/ry_parser/src/type.rs`
  (`ParenthesizedTupleOrFunctionTypeParser` and friends).
* `RyItems` embeds `crates/ry_parser/src/item/mod.rs` and
  `crates/ry_parser/src/expression/array.rs`.
-/

namespace RyLexer

/-- `'\0'`, the scanner's end-of-input sentinel character. -/
def NUL : Char := Char.ofNat 0

/-- `'"'` (double quote). -/
def quoteC : Char := Char.ofNat 34

/-- `'\''` (single quote). -/
def apos : Char := Char.ofNat 39

/-- `'\\'` (backslash). -/
def bslash : Char := Char.ofNat 92

/-- The back-tick character. -/
def btick : Char := Char.ofNat 96

/-- `'{'`. -/
def lbraceC : Char := Char.ofNat 123

/-- `'}'`. -/
def rbraceC : Char := Char.ofNat 125

/-- `'\n'`. -/
def lf : Char := Char.ofNat 10

/-- `RawLexError` from `ry_ast::token`: the lexical error kinds produced by
the scanner in `ry_lexer/src/lib.rs`. -/
inductive RawLexError where
  | EmptyEscapeSequence
  | ExpectedOpenBracketInUnicodeEscapeSequence
  | ExpectedDigitInUnicodeEscapeSequence
  | ExpectedCloseBracketInUnicodeEscapeSequence
  | InvalidUnicodeEscapeSequence
  | ExpectedOpenBracketInByteEscapeSequence
  | ExpectedDigitInByteEscapeSequence
  | ExpectedCloseBracketInByteEscapeSequence
  | InvalidByteEscapeSequence
  | UnknownEscapeSequence
  | UnterminatedCharLiteral
  | MoreThanOneCharInCharLiteral
  | EmptyCharLiteral
  | UnterminatedStringLiteral
  | UnterminatedWrappedIdentifier
  | EmptyWrappedIdentifier
  | UnexpectedChar
deriving DecidableEq

/-- `RawToken` from `ry_ast::token`, to the extent the scanner emits it.
Punctuator variants (`Token![+=]`, …) are represented as `Punct` carrying
their spelling, keyword variants as `Keyword` carrying the reserved word;
this keeps distinct source variants distinct.  (`ry_ast/src/token.rs`
itself is not under `src/`; the set of variants is read off the scanner's
dispatch in `ry_lexer/src/lib.rs`.) -/
inductive RawToken where
  | EndOfFile
  | Error (e : RawLexError)
  | Identifier
  | Keyword (kw : String)
  | Punct (p : String)
  | StringLiteral
  | CharLiteral
  | IntLiteral
  | FloatLiteral
  | ImagLiteral
  | Comment
  | GlobalDocComment
  | LocalDocComment
deriving DecidableEq

/-- `Span` from `ry_filesystem::span`: a half-open byte-offset range.
The `end` field is named `stop` (`end` is a Lean keyword). -/
structure Span where
  start : Nat
  stop : Nat
deriving DecidableEq

/-- `Token { raw, span }` from `ry_ast::token`. -/
structure Token where
  raw : RawToken
  span : Span
deriving DecidableEq

/-- `LexError { raw, span }` from `ry_ast::token`. -/
structure LexError where
  raw : RawLexError
  span : Span
deriving DecidableEq

/-- The mutable state of `Lexer` (`ry_lexer/src/lib.rs`):
`rest` is the not-yet-consumed tail of the source character sequence
(`current`/`next` of the Rust struct are its first two characters, with
`'\0'` once exhausted), `loc` is the `location` byte offset, and the
remaining fields are the `interner` handle and the `scanned_*` buffers. -/
structure LexState where
  rest : List Char
  loc : Nat
  interner : List String
  scannedIdentifier : Nat
  scannedChar : Char
  scannedString : List Char
deriving DecidableEq

/-- `Lexer::new`: the whole source is pending, location 0. -/
def initState (source : List Char) (interner : List String := []) : LexState :=
  { rest := source, loc := 0, interner := interner, scannedIdentifier := 0,
    scannedChar := NUL, scannedString := [] }

/-- The `current` character of the lexer (`'\0'` at end of input). -/
def cur (st : LexState) : Char := st.rest.headD NUL

/-- The `next` (lookahead) character of the lexer. -/
def nxt (st : LexState) : Char := (st.rest.drop 1).headD NUL

/-- `Lexer::advance`: shift by one character, adding the UTF-8 width of the
consumed character to the location.  When the input is exhausted the Rust
code still executes `location += '\0'.len_utf8()`, i.e. adds 1; `headD NUL`
reproduces that. -/
def advance (st : LexState) : LexState :=
  { st with rest := st.rest.tail, loc := st.loc + (cur st).utf8Size }

/-- Writing the `scanned_char` buffer. -/
def setScannedChar (c : Char) (st : LexState) : LexState :=
  { st with scannedChar := c }

/-- Appending to the `scanned_string` buffer (`String::push`). -/
def pushScannedString (c : Char) (st : LexState) : LexState :=
  { st with scannedString := st.scannedString ++ [c] }

/-- `Lexer::current_char_span`. -/
def currentCharSpan (st : LexState) : Span := ⟨st.loc, st.loc + 1⟩

/-- `Lexer::span_from`. -/
def spanFrom (startLoc : Nat) (st : LexState) : Span := ⟨startLoc, st.loc⟩

/-- `Lexer::advance_with`. -/
def advanceWith (raw : RawToken) (st : LexState) : Token × LexState :=
  (⟨raw, currentCharSpan st⟩, advance st)

/-- `Lexer::advance_twice_with`: span `location..location + 2`. -/
def advanceTwiceWith (raw : RawToken) (st : LexState) : Token × LexState :=
  (⟨raw, ⟨st.loc, st.loc + 2⟩⟩, advance (advance st))

/-- `is_whitespace` from `ry_lexer/src/lib.rs`. -/
def isWhitespace (c : Char) : Bool :=
  c = Char.ofNat 0x09 || c = lf || c = Char.ofNat 0x0B ||
  c = Char.ofNat 0x0C || c = Char.ofNat 0x0D || c = Char.ofNat 0x20 ||
  c = Char.ofNat 0x85 || c = Char.ofNat 0x200E || c = Char.ofNat 0x200F ||
  c = Char.ofNat 0x2028 || c = Char.ofNat 0x2029

/-- ASCII hex-digit test (`char::is_ascii_hexdigit`). -/
def isAsciiHexDigit (c : Char) : Bool :=
  c.isDigit || (Char.ofNat 97 ≤ c && c ≤ Char.ofNat 102) ||
    (Char.ofNat 65 ≤ c && c ≤ Char.ofNat 70)

/-- Numeric value of an ASCII hex digit. -/
def hexVal (c : Char) : Nat :=
  if c.isDigit then c.toNat - 48
  else if Char.ofNat 97 ≤ c then c.toNat - 87
  else c.toNat - 55

/-- Hex value of a digit buffer (`u32::from_str_radix(&buffer, 16)`). -/
def hexNat (buf : List Char) : Nat :=
  buf.foldl (fun acc c => acc * 16 + hexVal c) 0

/-- `char::from_u32`: `some` exactly on valid Unicode scalar values. -/
def charFromNat (n : Nat) : Option Char :=
  if h : n.isValidChar then some (Char.ofNatAux n h) else none

/-- `unicode_xid::UnicodeXID::is_xid_start`, a third-party dependency of
the scanner; modelled on the ASCII range (letters).  The model satisfies
the same closure properties the scanner relies on (`XID_Start ⊆
XID_Continue`; whitespace, punctuation, digits and `'\0'` excluded). -/
def isXidStart (c : Char) : Bool := c.isAlpha

/-- `unicode_xid::UnicodeXID::is_xid_continue`, modelled on the ASCII range
(letters, digits, underscore). -/
def isXidContinue (c : Char) : Bool := c.isAlphanum || c = Char.ofNat 95

/-- `is_id_start` from `ry_lexer/src/lib.rs`. -/
def isIdStart (c : Char) : Bool := c = Char.ofNat 95 || isXidStart c

/-- `is_id_continue` from `ry_lexer/src/lib.rs`. -/
def isIdContinue (c : Char) : Bool := isXidContinue c

/-- `number::decimal` (`ry_lexer/src/number.rs`, not under `src/`).
Modelled from the spec: a decimal digit. -/
def decimal (c : Char) : Bool := c.isDigit

/-- The reserved-word table `RESERVED` (`ry_ast/src/token.rs`, not under
`src/`).  Modelled from the spec (§4.1: identifiers are "checked against a
static reserved-word table") and the keywords used by the parser sources;
only membership matters to the scanner's control flow. -/
def RESERVED : List String :=
  ["as", "break", "continue", "defer", "dyn", "else", "enum", "false",
   "fun", "if", "impl", "import", "let", "match", "pub", "return",
   "struct", "trait", "true", "type", "where", "while"]

/-- The loop of `Lexer::eat_whitespaces`, with explicit step fuel (the
loop consumes one character per iteration, so `rest.length + 1` steps
always suffice and the wrapper below never exhausts the fuel). -/
def eatWhitespacesF : Nat → LexState → LexState
  | 0, st => st
  | fuel + 1, st =>
    if isWhitespace (cur st) = true then eatWhitespacesF fuel (advance st)
    else st

/-- `Lexer::eat_whitespaces`. -/
def eatWhitespaces (st : LexState) : LexState :=
  eatWhitespacesF (st.rest.length + 1) st

/-- The loop of `Lexer::advance_while` (`while f(current, next) && !eof`),
with explicit step fuel.  Returns the consumed characters (the string
slice the Rust method returns when the caller's `start_location` is the
entry location) together with the final state. -/
def advanceWhileF (f : Char → Char → Bool) : Nat → LexState →
    List Char × LexState
  | 0, st => ([], st)
  | fuel + 1, st =>
    if f (cur st) (nxt st) = true ∧ cur st ≠ NUL then
      let r := advanceWhileF f fuel (advance st)
      (cur st :: r.1, r.2)
    else ([], st)

/-- `Lexer::advance_while`. -/
def advanceWhile (f : Char → Char → Bool) (st : LexState) :
    List Char × LexState :=
  advanceWhileF f (st.rest.length + 1) st

/-- The index of the first occurrence of `s` (the list length when `s` is
absent). -/
def internIdx (s : String) : List String → Nat
  | [] => 0
  | t :: rest => if t = s then 0 else internIdx s rest + 1

/-- `Interner::get_or_intern` (`ry_interner` crate, not under `src/`).
Modelled from the spec (§2, §5): a bidirectional map from text to small
integer symbols; interning returns the existing symbol or allocates the
next fresh one.  The interner is the list of interned strings in
allocation order and a symbol is an index into it. -/
def getOrIntern (i : List String) (s : String) : Nat × List String :=
  (internIdx s i, if s ∈ i then i else i ++ [s])

/-- The `for _ in 0..n` hex-digit collection loop shared by the `u`, `U` and
`x` arms of `Lexer::eat_escape`: collect `n` hex digits, failing with the
given "expected digit" error kind at the offending character otherwise. -/
def eatHexDigits (kind : RawLexError) : Nat → LexState →
    Except LexError (List Char) × LexState
  | 0, st => (.ok [], st)
  | n + 1, st =>
    if isAsciiHexDigit (cur st) then
      match eatHexDigits kind n (advance st) with
      | (.ok buf, st2) => (.ok (cur st :: buf), st2)
      | (.error e, st2) => (.error e, st2)
    else (.error ⟨kind, currentCharSpan st⟩, st)

/-- The shared body of the `u`/`U`/`x` arms of `Lexer::eat_escape`:
`advance` past the introducing letter, require `{`, collect `digits` hex
digits, require `}`.  Returns the collected buffer together with the state
whose `current` is the closing `}` on success; early `return Err(...)`
paths leave the state exactly where the Rust code does. -/
def eatBracketedHex (openKind digitKind closeKind : RawLexError)
    (digits : Nat) (st : LexState) : Except LexError (List Char) × LexState :=
  if cur (advance st) ≠ lbraceC then
    (.error ⟨openKind, currentCharSpan (advance st)⟩, advance st)
  else
    match eatHexDigits digitKind digits (advance (advance st)) with
    | (.error e, st') => (.error e, st')
    | (.ok buf, st3) =>
      if cur st3 ≠ rbraceC then (.error ⟨closeKind, currentCharSpan st3⟩, st3)
      else (.ok buf, st3)

/-- The tail of a `u`/`U`/`x` arm of `Lexer::eat_escape`: decode the buffer
with `char::from_u32` and run the final `self.advance()` of `eat_escape`
(these `Err` values are produced without an early `return`, so the final
advance executes).  `invalidSpan` is the span the arm attaches to an
invalid scalar value: `current_char_span` for `\u`/`\U`, `location - 4 ..
location` for `\x`. -/
def escapeArmFinish (invalidKind : RawLexError)
    (invalidSpan : LexState → Span) :
    Except LexError (List Char) × LexState → Except LexError Char × LexState
  | (.error e, st') => (.error e, st')
  | (.ok buf, st3) =>
    match charFromNat (hexNat buf) with
    | some ch => (.ok ch, advance st3)
    | none => (.error ⟨invalidKind, invalidSpan st3⟩, advance st3)

/-- The shape of an arm of the `match self.current` in `Lexer::eat_escape`:
a simple escape decoding to a fixed character, the `'\0'` arm, a
`\u`/`\U` arm (4 or 8 digits), the `\x` arm, or the catch-all. -/
inductive EscKind where
  | simple (ch : Char)
  | empty
  | uni (digits : Nat)
  | byte
  | unknown
deriving DecidableEq

/-- The `match self.current` of `Lexer::eat_escape`, arm by arm (the
source matches on distinct character literals, so arm order is
immaterial). -/
def classifyEscape (c : Char) : EscKind :=
  if c = NUL then .empty
  else if c = Char.ofNat 117 then .uni 4
  else if c = Char.ofNat 85 then .uni 8
  else if c = Char.ofNat 120 then .byte
  else if c = Char.ofNat 98 then .simple (Char.ofNat 0x08)
  else if c = Char.ofNat 102 then .simple (Char.ofNat 0x0C)
  else if c = Char.ofNat 110 then .simple (Char.ofNat 0x0A)
  else if c = Char.ofNat 114 then .simple (Char.ofNat 0x0D)
  else if c = Char.ofNat 116 then .simple (Char.ofNat 0x09)
  else if c = apos then .simple apos
  else if c = quoteC then .simple quoteC
  else if c = bslash then .simple bslash
  else .unknown

/-- `Lexer::eat_escape`.  First `self.advance()` past the backslash, then
the `match self.current` (via `classifyEscape`); the final `self.advance()`
of the Rust code runs on every path that reaches the end of the `match`
(all `Ok` outcomes and the `Err` values produced without an early
`return`). -/
def eatEscape (st0 : LexState) : Except LexError Char × LexState :=
  match classifyEscape (cur (advance st0)) with
  | .simple ch => (.ok ch, advance (advance st0))
  | .empty =>
    (.error ⟨.EmptyEscapeSequence, currentCharSpan (advance st0)⟩,
      advance (advance st0))
  | .uni n =>
    escapeArmFinish .InvalidUnicodeEscapeSequence currentCharSpan
      (eatBracketedHex .ExpectedOpenBracketInUnicodeEscapeSequence
        .ExpectedDigitInUnicodeEscapeSequence
        .ExpectedCloseBracketInUnicodeEscapeSequence n (advance st0))
  | .byte =>
    escapeArmFinish .InvalidByteEscapeSequence (fun s => ⟨s.loc - 4, s.loc⟩)
      (eatBracketedHex .ExpectedOpenBracketInByteEscapeSequence
        .ExpectedDigitInByteEscapeSequence
        .ExpectedCloseBracketInByteEscapeSequence 2 (advance st0))
  | .unknown =>
    (.error ⟨.UnknownEscapeSequence, currentCharSpan (advance st0)⟩,
      advance (advance st0))

/-- The body loop of `Lexer::eat_string`
(`while !self.eof() && self.current != '\n'`), with explicit step fuel
(each iteration consumes at least one character, so `rest.length + 1`
steps always suffice): push plain characters, decode escapes, stop at `"`
or at end of line/input.  A `some` first component is the escape error the
Rust code returns from inside the loop. -/
def eatStringLoopF : Nat → LexState → Option LexError × LexState
  | 0, st => (none, st)
  | fuel + 1, st =>
    if cur st = NUL ∨ cur st = lf then (none, st)
    else if cur st = quoteC then (none, st)
    else if cur st = bslash then
      match eatEscape st with
      | (.ok c, st') => eatStringLoopF fuel (pushScannedString c st')
      | (.error e, st') => (some e, st')
    else eatStringLoopF fuel (pushScannedString (cur st) (advance st))

/-- The body loop of `Lexer::eat_string`. -/
def eatStringLoop (st : LexState) : Option LexError × LexState :=
  eatStringLoopF (st.rest.length + 1) st

/-- `Lexer::eat_string`. -/
def eatString (st0 : LexState) : Token × LexState :=
  match eatStringLoop (advance { st0 with scannedString := [] }) with
  | (some e, st') => (⟨.Error e.raw, e.span⟩, st')
  | (none, st1) =>
    if cur st1 = NUL ∨ cur st1 = lf then
      (⟨.Error .UnterminatedStringLiteral, spanFrom st0.loc st1⟩, st1)
    else
      (⟨.StringLiteral, spanFrom st0.loc (advance st1)⟩, advance st1)

/-- The body loop of `Lexer::eat_char` (`while self.current != '\''`),
with explicit step fuel (each iteration consumes at least one character,
so `rest.length + 1` steps always suffice), counting the scanned logical
characters in `size`.  An `error` outcome is the token the Rust code
returns from inside the loop (unterminated literal or escape error). -/
def eatCharLoopF (startLoc : Nat) : Nat → LexState → Nat →
    Except (Token × LexState) (LexState × Nat)
  | 0, st, size => .ok (st, size)
  | fuel + 1, st, size =>
    if cur st = apos then .ok (st, size)
    else if cur st = lf ∨ cur st = NUL then
      .error (⟨.Error .UnterminatedCharLiteral, spanFrom startLoc st⟩, st)
    else if cur st = bslash then
      match eatEscape st with
      | (.ok c, st') => eatCharLoopF startLoc fuel (setScannedChar c st') (size + 1)
      | (.error e, st') => .error (⟨.Error e.raw, e.span⟩, st')
    else eatCharLoopF startLoc fuel (setScannedChar (cur st) (advance st)) (size + 1)

/-- The body loop of `Lexer::eat_char`. -/
def eatCharLoop (startLoc : Nat) (st : LexState) (size : Nat) :
    Except (Token × LexState) (LexState × Nat) :=
  eatCharLoopF startLoc (st.rest.length + 1) st size

/-- The lexer state carried by either outcome of the `eat_char` loop. -/
def charLoopState : Except (Token × LexState) (LexState × Nat) → LexState
  | .error (_, s) => s
  | .ok (s, _) => s

/-- The early-return token of the `eat_char` loop, when there is one. -/
def charLoopToken : Except (Token × LexState) (LexState × Nat) → Option Token
  | .error (t, _) => some t
  | .ok _ => none

/-- `Lexer::eat_char`. -/
def eatCharLit (st0 : LexState) : Token × LexState :=
  match eatCharLoop st0.loc (advance st0) 0 with
  | .error ts => ts
  | .ok (st1, size) =>
    if 2 ≤ size then
      (⟨.Error .MoreThanOneCharInCharLiteral, spanFrom st0.loc (advance st1)⟩,
        advance st1)
    else if size = 0 then
      (⟨.Error .EmptyCharLiteral, spanFrom st0.loc (advance st1)⟩, advance st1)
    else (⟨.CharLiteral, spanFrom st0.loc (advance st1)⟩, advance st1)

/-- `Lexer::eat_wrapped_id`.  The name is the slice `[1..]` of
`advance_while(start_location, ..)`, i.e. exactly the characters consumed
by the `advance_while` call (which starts after the opening back-tick). -/
def eatWrappedId (st0 : LexState) : Token × LexState :=
  let r := advanceWhile (fun c _ => c.isAlphanum || c = Char.ofNat 95)
    (advance st0)
  if cur r.2 ≠ btick then
    (⟨.Error .UnterminatedWrappedIdentifier, spanFrom st0.loc r.2⟩, r.2)
  else if r.1 = [] then
    (⟨.Error .EmptyWrappedIdentifier, spanFrom st0.loc r.2⟩, r.2)
  else
    let st2 := advance r.2
    let si := getOrIntern st2.interner (String.mk r.1)
    (⟨.Identifier, spanFrom st0.loc st2⟩,
      { st2 with interner := si.2, scannedIdentifier := si.1 })

/-- `Lexer::eat_comment`, entered with `current` at the second `/` (the
first is already consumed), so `start_location = self.location - 1`. -/
def eatComment (st : LexState) : Token × LexState :=
  let r := advanceWhile (fun c _ => c ≠ lf) (advance st)
  (⟨.Comment, spanFrom (st.loc - 1) r.2⟩, r.2)

/-- `Lexer::eat_doc_comment`, entered with `current` at the second `/`:
`advance_twice` past `/` and `!`/`/`, then scan to end of line. -/
def eatDocComment (global : Bool) (st : LexState) : Token × LexState :=
  let r := advanceWhile (fun c _ => c ≠ lf) (advance (advance st))
  (⟨if global then .GlobalDocComment else .LocalDocComment,
    spanFrom (st.loc - 1) r.2⟩, r.2)

/-- The `('/', '/')` arm of `Lexer::next_token`: one `advance`, then
dispatch on the new lookahead (`'!'` → module doc comment, `'/'` → local
doc comment, otherwise plain comment). -/
def eatSlashSlash (st : LexState) : Token × LexState :=
  if nxt (advance st) = Char.ofNat 33 then eatDocComment true (advance st)
  else if nxt (advance st) = Char.ofNat 47 then eatDocComment false (advance st)
  else eatComment (advance st)

/-- `Lexer::eat_name`: scan an identifier run and look it up in
`RESERVED`. -/
def eatName (st : LexState) : Token × LexState :=
  let r := advanceWhile (fun c _ => isIdContinue c) st
  if RESERVED.contains (String.mk r.1) then
    (⟨.Keyword (String.mk r.1), spanFrom st.loc r.2⟩, r.2)
  else
    let si := getOrIntern r.2.interner (String.mk r.1)
    (⟨.Identifier, spanFrom st.loc r.2⟩,
      { r.2 with interner := si.2, scannedIdentifier := si.1 })

/-- Modelled from the spec: the numeric sub-scanner `Lexer::eat_number`
lives in `ry_lexer/src/number.rs`, which is not under `src/`.  Spec §4.1:
"Numeric literals: a dedicated sub-routine distinguishes
decimal/float/imaginary suffixes."  The model scans a decimal digit run,
an optional fractional part introduced by `.` followed by a digit, and an
optional imaginary suffix `i`; every advance is guarded by a non-`'\0'`
current character, and at least one character is consumed on each entry
path of the dispatch (`decimal(current)`, or `current == '.' &&
decimal(next)`). -/
def eatNumber (st0 : LexState) : Token × LexState :=
  let r1 := advanceWhile (fun c _ => decimal c) st0
  if cur r1.2 = Char.ofNat 46 ∧ decimal (nxt r1.2) = true then
    let r2 := advanceWhile (fun c _ => decimal c) (advance r1.2)
    if cur r2.2 = Char.ofNat 105 then
      (⟨.ImagLiteral, spanFrom st0.loc (advance r2.2)⟩, advance r2.2)
    else (⟨.FloatLiteral, spanFrom st0.loc r2.2⟩, r2.2)
  else if cur r1.2 = Char.ofNat 105 then
    (⟨.ImagLiteral, spanFrom st0.loc (advance r1.2)⟩, advance r1.2)
  else (⟨.IntLiteral, spanFrom st0.loc r1.2⟩, r1.2)

/-- The shape of an arm of the dispatch `match (self.current, self.next)`
in `Lexer::next_token`: a one-character punctuator (`advance_with`), a
two-character punctuator (`advance_twice_with`), the string / char /
wrapped-identifier / comment / number / name sub-scanners, or the
unexpected-character fallback.  Constructors carry the facts about
`(current, next)` that hold in the corresponding arm and that the arm's
action relies on. -/
inductive Dispatch (c n : Char) : Type where
  | punct1 (p : String)
  | punct2 (p : String) (h : n ≠ NUL)
  | strLit
  | charLit
  | wrappedId
  | slashSlash (h : n = Char.ofNat 47)
  | number (h : decimal c = true ∨ (c = Char.ofNat 46 ∧ decimal n = true))
  | name (h : isIdStart c = true)
  | errTok

/-- The dispatch `match (self.current, self.next)` of `Lexer::next_token`,
transcribed arm by arm in source order.  Note the `('%', '=')` arm: the
source uses `advance_with` (not `advance_twice_with`) there, so it is a
`punct1` arm. -/
def dispatch (c n : Char) : Dispatch c n :=
  if c = Char.ofNat 58 then .punct1 ":"
  else if c = Char.ofNat 64 then .punct1 "@"
  else if c = quoteC then .strLit
  else if c = apos then .charLit
  else if c = btick then .wrappedId
  else if h : c = Char.ofNat 43 ∧ n = Char.ofNat 43 then
    .punct2 "++" (by rw [h.2]; decide)
  else if h : c = Char.ofNat 43 ∧ n = Char.ofNat 61 then
    .punct2 "+=" (by rw [h.2]; decide)
  else if c = Char.ofNat 43 then .punct1 "+"
  else if h : c = Char.ofNat 45 ∧ n = Char.ofNat 45 then
    .punct2 "--" (by rw [h.2]; decide)
  else if h : c = Char.ofNat 45 ∧ n = Char.ofNat 61 then
    .punct2 "-=" (by rw [h.2]; decide)
  else if c = Char.ofNat 45 then .punct1 "-"
  else if h : c = Char.ofNat 42 ∧ n = Char.ofNat 42 then
    .punct2 "**" (by rw [h.2]; decide)
  else if h : c = Char.ofNat 42 ∧ n = Char.ofNat 61 then
    .punct2 "*=" (by rw [h.2]; decide)
  else if c = Char.ofNat 42 then .punct1 "*"
  else if c = Char.ofNat 35 then .punct1 "#"
  else if h : c = Char.ofNat 47 ∧ n = Char.ofNat 47 then .slashSlash h.2
  else if h : c = Char.ofNat 47 ∧ n = Char.ofNat 61 then
    .punct2 "/=" (by rw [h.2]; decide)
  else if c = Char.ofNat 47 then .punct1 "/"
  else if h : c = Char.ofNat 33 ∧ n = Char.ofNat 61 then
    .punct2 "!=" (by rw [h.2]; decide)
  else if c = Char.ofNat 33 then .punct1 "!"
  else if h : c = Char.ofNat 62 ∧ n = Char.ofNat 62 then
    .punct2 ">>" (by rw [h.2]; decide)
  else if h : c = Char.ofNat 62 ∧ n = Char.ofNat 61 then
    .punct2 ">=" (by rw [h.2]; decide)
  else if c = Char.ofNat 62 then .punct1 ">"
  else if h : c = Char.ofNat 60 ∧ n = Char.ofNat 60 then
    .punct2 "<<" (by rw [h.2]; decide)
  else if h : c = Char.ofNat 60 ∧ n = Char.ofNat 61 then
    .punct2 "<=" (by rw [h.2]; decide)
  else if c = Char.ofNat 60 then .punct1 "<"
  else if h : c = Char.ofNat 61 ∧ n = Char.ofNat 61 then
    .punct2 "==" (by rw [h.2]; decide)
  else if h : c = Char.ofNat 61 ∧ n = Char.ofNat 62 then
    .punct2 "=>" (by rw [h.2]; decide)
  else if c = Char.ofNat 61 then .punct1 "="
  else if h : c = Char.ofNat 124 ∧ n = Char.ofNat 61 then
    .punct2 "|=" (by rw [h.2]; decide)
  else if h : c = Char.ofNat 124 ∧ n = Char.ofNat 124 then
    .punct2 "||" (by rw [h.2]; decide)
  else if c = Char.ofNat 124 then .punct1 "|"
  else if c = Char.ofNat 63 then .punct1 "?"
  else if h : c = Char.ofNat 38 ∧ n = Char.ofNat 38 then
    .punct2 "&&" (by rw [h.2]; decide)
  else if c = Char.ofNat 38 then .punct1 "&"
  else if h : c = Char.ofNat 94 ∧ n = Char.ofNat 61 then
    .punct2 "^=" (by rw [h.2]; decide)
  else if c = Char.ofNat 94 then .punct1 "^"
  else if c = Char.ofNat 126 then .punct1 "~"
  else if c = Char.ofNat 40 then .punct1 "("
  else if c = Char.ofNat 41 then .punct1 ")"
  else if c = Char.ofNat 91 then .punct1 "["
  else if c = Char.ofNat 93 then .punct1 "]"
  else if c = lbraceC then .punct1 "\x7b"
  else if c = rbraceC then .punct1 "\x7d"
  else if c = Char.ofNat 44 then .punct1 ","
  else if c = Char.ofNat 59 then .punct1 ";"
  else if c = Char.ofNat 37 ∧ n = Char.ofNat 61 then .punct1 "%="
  else if c = Char.ofNat 37 then .punct1 "%"
  else if h : c = Char.ofNat 46 ∧ n = Char.ofNat 46 then
    .punct2 ".." (by rw [h.2]; decide)
  else if h : decimal c = true ∨ (c = Char.ofNat 46 ∧ decimal n = true) then
    .number h
  else if h : isIdStart c = true then .name h
  else if c = Char.ofNat 46 then .punct1 "."
  else .errTok

/-- The action taken by `Lexer::next_token` once the dispatch arm is
known (`st` is the state after `eat_whitespaces`, with a non-`'\0'`
current character). -/
def nextTokenD (st : LexState) : Token × LexState :=
  match dispatch (cur st) (nxt st) with
  | .punct1 p => advanceWith (.Punct p) st
  | .punct2 p _ => advanceTwiceWith (.Punct p) st
  | .strLit => eatString st
  | .charLit => eatCharLit st
  | .wrappedId => eatWrappedId st
  | .slashSlash _ => eatSlashSlash st
  | .number _ => eatNumber st
  | .name _ => eatName st
  | .errTok => advanceWith (.Error .UnexpectedChar) st

/-- `Lexer::next_token`: skip whitespace; at end of input return the
`EndOfFile` token at `current_char_span`; otherwise dispatch on
`(current, next)`. -/
def nextToken (st0 : LexState) : Token × LexState :=
  if cur (eatWhitespaces st0) = NUL then
    (⟨.EndOfFile, currentCharSpan (eatWhitespaces st0)⟩, eatWhitespaces st0)
  else nextTokenD (eatWhitespaces st0)

/-- The lexer state after `n` calls of `next_token` starting from
`Lexer::new(source)`. -/
def stateAt (source : List Char) : Nat → LexState
  | 0 => initState source
  | n + 1 => (nextToken (stateAt source n)).2

/-- The token returned by the `(n+1)`-st call of `next_token` (0-based
index `n`). -/
def tokenAt (source : List Char) (n : Nat) : Token :=
  (nextToken (stateAt source n)).1

/-- The UTF-8 byte length of a character sequence (the Rust `str::len` of
the source). -/
def byteLen (l : List Char) : Nat := (l.map Char.utf8Size).sum

/-- The byte-accounting measure of a lexer state: the location counter
plus the byte length of the unconsumed input.  It starts at the byte
length of the source and is preserved by every in-bounds `advance`. -/
def good (st : LexState) : Nat := st.loc + byteLen st.rest

/-- A sequence of interning operations applied in order
(`get_or_intern` for each text). -/
def applyInterns (ops : List String) (i : List String) : List String :=
  ops.foldl (fun acc s => (getOrIntern acc s).2) i

end RyLexer

namespace RyExpr

/-!
Embedding of the precedence-climbing core of
`crates/ry-parser/src/expression.rs` (`Parser::parse_expression` /
`Parser::parse_prefix`), restricted to the expression fragment of integer
literals and operator tokens.  The other prefix productions (`if`,
`while`, identifiers, parenthesized groups, list literals) and the other
loop productions (call, `.`, indexing, `as`) call sub-parsers
(`parse_statements_block`, `parse_name`, `parse_type`, `parse_list!`)
whose sources are not under `src/`; they are outside the embedded token
type, so the corresponding `match` arms are vacuous here.  The `_ =>
break` arm of the loop and the `_ => Err(UnexpectedToken)` arm of
`parse_prefix` are transcribed as written.
-/

open RyLexer (Span)

/-- The raw tokens of the embedded expression fragment: integer literals
(`RawToken::Int(u64)`), the operator punctuators appearing in
`binop_pattern!` / `postfixop_pattern!` / the prefix-operator arm, and
`EndOfFile`. -/
inductive ERaw where
  | int (v : Nat)
  | plus | minus | star | slash
  | eq | notEq | lessThan | greaterThan | lessOrEq | greaterOrEq
  | andAnd | orOr
  | bang | tilde
  | plusPlus | minusMinus
  | endOfFile
deriving DecidableEq

/-- A token of the old-architecture parser (`WithSpan<RawToken>`): the
`value` and its span. -/
structure ETok where
  value : ERaw
  span : Span
deriving DecidableEq

/-- `binop_pattern!` (`ry-parser/src/macros.rs`, not under `src/`).
Modelled from the spec (§4.2: binary productions of the
precedence-climbing loop): the binary operator tokens of the fragment. -/
def isBinOp : ERaw → Bool
  | .plus | .minus | .star | .slash
  | .eq | .notEq | .lessThan | .greaterThan | .lessOrEq | .greaterOrEq
  | .andAnd | .orOr => true
  | _ => false

/-- `postfixop_pattern!` (`ry-parser/src/macros.rs`, not under `src/`).
Modelled from the spec: the postfix operator tokens (`++`, `--`). -/
def isPostfixOp : ERaw → Bool
  | .plusPlus | .minusMinus => true
  | _ => false

/-- The prefix-operator arm `Bang | Not | PlusPlus | MinusMinus | Minus |
Plus` of `parse_prefix`. -/
def isPrefixOp : ERaw → Bool
  | .bang | .tilde | .plusPlus | .minusMinus | .minus | .plus => true
  | _ => false

/-- `RawToken::to_precedence` together with the `Precedence` enum
(`ry_ast/src/precedence.rs`, not under `src/`).  Modelled from the spec:
`Precedence::Lowest` is the bottom (0), `*`/`/` bind strictly tighter than
`+`/`-` (§8: `1 + 2 * 3` parses as `1 + (2 * 3)`), comparison and logical
operators bind looser, `Precedence::PrefixOrPostfix` is the top; tokens
that are not operators have the lowest precedence. -/
def toPrecedence : ERaw → Int
  | .orOr => 1
  | .andAnd => 2
  | .eq | .notEq => 3
  | .lessThan | .greaterThan | .lessOrEq | .greaterOrEq => 4
  | .plus | .minus => 5
  | .star | .slash => 6
  | .plusPlus | .minusMinus => 7
  | _ => 0

/-- `Precedence::Lowest.to_i8()`. -/
def lowestPrec : Int := 0

/-- `Precedence::PrefixOrPostfix.to_i8()`. -/
def prefixOrPostfixPrec : Int := 7

/-- The expression AST of the fragment (`ry-ast`'s `RawExpression`
variants `Int`, `PrefixOrPostfix`, `Binary`, each `WithSpan`). -/
inductive Expr where
  | int (v : Nat) (span : Span)
  | prefixOrPostfix (op : ETok) (e : Expr) (span : Span)
  | binary (l : Expr) (op : ETok) (r : Expr) (span : Span)
deriving DecidableEq

/-- The span of an expression (`WithSpan`). -/
def Expr.spanOf : Expr → Span
  | .int _ s => s
  | .prefixOrPostfix _ _ s => s
  | .binary _ _ _ s => s

/-- `ParserError` (`ry-parser/src/error.rs`, not under `src/`): the
`UnexpectedToken` case used by `parse_prefix`, plus an out-of-fuel marker
that is an artifact of the step-indexed embedding (never hit when enough
fuel is supplied). -/
inductive PErr where
  | unexpectedToken (tok : ETok) (node : String)
  | outOfFuel
deriving DecidableEq

/-- The token-cursor state of `Parser`: the current token and the pending
tokens (`Parser::advance` pulls the next token from the lexer; the
end-of-file sentinel repeats forever). -/
structure PState where
  current : ETok
  rest : List ETok
deriving DecidableEq

/-- The perpetual end-of-file sentinel token. -/
def eofTok : ETok := ⟨.endOfFile, ⟨0, 0⟩⟩

/-- `Parser::advance`. -/
def eadvance (st : PState) : PState :=
  ⟨st.rest.headD eofTok, st.rest.tail⟩

mutual

/-- `Parser::parse_expression(precedence)`: parse a prefix production,
then run the precedence-climbing loop. -/
def parseExpression : Nat → Int → PState → Except PErr (Expr × PState)
  | 0, _, _ => .error .outOfFuel
  | fuel + 1, prec, st =>
    match parsePrefixExpr fuel st with
    | .error e => .error e
    | .ok (left, st1) => parseExprLoop fuel prec left st1

/-- `Parser::parse_prefix`, restricted to the fragment: the `Int(i)`
literal arm, the prefix-operator arm, and the final
`Err(ParserError::UnexpectedToken(.., "expression", ..))` arm. -/
def parsePrefixExpr : Nat → PState → Except PErr (Expr × PState)
  | 0, _ => .error .outOfFuel
  | fuel + 1, st =>
    match st.current.value with
    | .int v => .ok (.int v st.current.span, eadvance st)
    | _ =>
      if isPrefixOp st.current.value then
        let left := st.current
        match parseExpression fuel prefixOrPostfixPrec (eadvance st) with
        | .error e => .error e
        | .ok (expr, st1) =>
          .ok (.prefixOrPostfix left expr
            ⟨left.span.start, expr.spanOf.stop⟩, st1)
      else .error (.unexpectedToken st.current "expression")

/-- The `while precedence < self.current.value.to_precedence()` loop of
`parse_expression`, with its `binop_pattern!()` arm, its
`postfixop_pattern!()` arm, and the `_ => break` arm.  Note the `Binary`
span: `end` is read from `self.current.span.end` after the right operand
has been parsed, i.e. from the first token after the right operand. -/
def parseExprLoop : Nat → Int → Expr → PState → Except PErr (Expr × PState)
  | 0, _, _, _ => .error .outOfFuel
  | fuel + 1, minPrec, left, st =>
    if minPrec < toPrecedence st.current.value then
      if isBinOp st.current.value then
        let op := st.current
        let prec := toPrecedence st.current.value
        match parseExpression fuel prec (eadvance st) with
        | .error e => .error e
        | .ok (right, st2) =>
          parseExprLoop fuel minPrec
            (.binary left op right ⟨left.spanOf.start, st2.current.span.stop⟩)
            st2
      else if isPostfixOp st.current.value then
        let right := st.current
        parseExprLoop fuel minPrec
          (.prefixOrPostfix right left
            ⟨left.spanOf.start, st.current.span.stop⟩)
          (eadvance st)
      else .ok (left, st)
    else .ok (left, st)

end

end RyExpr

namespace RyTypeP

/-!
Embedding of `crates/ry_parser/src/type.rs`: `TypeParser`,
`ParenthesizedTupleOrFunctionTypeParser`, `TypePathParser`,
`TypePathSegmentParser`, `TraitObjectTypeParser`,
`TypeWithQualifiedPathParser`, `TypeBoundsParser` and
`GenericArgumentsParser`, over the AST of `crates/ry_ast/src/lib.rs`.
The parse state (`ParseState`), the `parse_list!` macro and `PathParser`
live in files that are not under `src/` and are modelled from the spec,
as marked.  All parsers are step-indexed with fuel (the grammar is
mutually recursive); fuel exhaustion yields a failed parse and is never
hit on the concrete inputs used below.
-/

open RyLexer (Span)

/-- The raw tokens used by the type grammar: `Token!['(']`, `Token![')']`,
`Token!['[']`, `Token![']']`, `Token![,]`, `Token![:]`, `Token![.]`,
`Token![+]`, `Token![=]`, `Token![dyn]`, `Token![as]`,
`RawToken::Identifier` and `RawToken::EndOfFile`. -/
inductive TRaw where
  | lparen | rparen | lbracket | rbracket
  | comma | colon | dot | plus | eqSign
  | kwDyn | kwAs
  | ident (sym : Nat)
  | endOfFile
deriving DecidableEq

/-- A token with its span. -/
structure TTok where
  raw : TRaw
  span : Span
deriving DecidableEq

/-- `IdentifierAst` (`ry_ast/src/lib.rs`): a span-tagged symbol. -/
structure IdentifierAst where
  span : Span
  symbol : Nat
deriving DecidableEq

/-- `Path` (`ry_ast/src/lib.rs`). -/
structure PathAst where
  span : Span
  identifiers : List IdentifierAst
deriving DecidableEq

mutual

/-- `TypePath` (`ry_ast/src/lib.rs`). -/
inductive TypePath where
  | mk (span : Span) (segments : List TypePathSegment)

/-- `TypePathSegment` (`ry_ast/src/lib.rs`). -/
inductive TypePathSegment where
  | mk (span : Span) (path : PathAst)
      (genericArguments : Option (List GenericArgument))

/-- `Type` (`ry_ast/src/lib.rs`). -/
inductive TypeT where
  | path (tp : TypePath)
  | tuple (span : Span) (elementTypes : List TypeT)
  | function (span : Span) (parameterTypes : List TypeT) (returnType : TypeT)
  | parenthesized (span : Span) (inner : TypeT)
  | traitObject (span : Span) (bounds : List TypePath)
  | withQualifiedPath (span : Span) (left : TypeT) (right : TypePath)
      (segments : List TypePathSegment)

/-- `GenericArgument` (`ry_ast/src/lib.rs`). -/
inductive GenericArgument where
  | type (t : TypeT)
  | associatedType (name : IdentifierAst) (value : TypeT)

end

/-- `TypePath.span`. -/
def TypePath.spanOf : TypePath → Span
  | .mk s _ => s

/-- `TypePath.segments`. -/
def TypePath.segmentsOf : TypePath → List TypePathSegment
  | .mk _ segs => segs

/-- `Type::span` (`ry_ast/src/lib.rs`). -/
def TypeT.spanOf : TypeT → Span
  | .path (.mk s _) => s
  | .tuple s _ => s
  | .function s _ _ => s
  | .parenthesized s _ => s
  | .traitObject s _ => s
  | .withQualifiedPath s _ _ _ => s

/-- The parser state, modelled from the spec (the `ParseState` type of
`ry_parser` is not under `src/`): the one-token lookahead `nextTok`, the
pending tokens, the end offset of the last consumed token (used by
`span_from`), the raw source text (used by `resolve_span`), and the
diagnostics sink (diagnostics are recorded as their node names; only
their number and position matter here). -/
structure TState where
  nextTok : TTok
  rest : List TTok
  prevEnd : Nat
  source : List Char
  diags : List String
deriving DecidableEq

/-- The perpetual end-of-file token. -/
def teof : TTok := ⟨.endOfFile, ⟨0, 0⟩⟩

/-- `state.advance()`: consume the lookahead.  Modelled from the spec
(one-token lookahead buffer over the scanner). -/
def tadvance (st : TState) : TState :=
  { st with
    nextTok := st.rest.headD teof
    rest := st.rest.tail
    prevEnd := st.nextTok.span.stop }

/-- `state.span_from(start)`: from `start` to the end of the last
consumed token.  Modelled from the spec. -/
def tspanFrom (start : Nat) (st : TState) : Span := ⟨start, st.prevEnd⟩

/-- `state.resolve_span(span)`: the source text of a span.  Modelled from
the spec (§4.2 footnote: the one-element disambiguation "inspects raw
source text around a span").  The concrete inputs used below are ASCII,
where byte offsets and character offsets agree. -/
def tresolveSpan (st : TState) (sp : Span) : List Char :=
  (st.source.drop sp.start).take (sp.stop - sp.start)

/-- Push a diagnostic (`state.diagnostics.push(..)`), recorded by node
name. -/
def tdiag (node : String) (st : TState) : TState :=
  { st with diags := st.diags ++ [node] }

/-- `state.consume_identifier(node)`, modelled from the spec: expect an
identifier, else record a diagnostic and fail. -/
def tconsumeIdent (node : String) (st : TState) :
    Option IdentifierAst × TState :=
  match st.nextTok.raw with
  | .ident sym => (some ⟨st.nextTok.span, sym⟩, tadvance st)
  | _ => (none, tdiag node st)

/-- `state.consume(token, node)`, modelled from the spec: expect the given
raw token, else record a diagnostic and fail. -/
def tconsume (expected : TRaw) (node : String) (st : TState) :
    Option Unit × TState :=
  if st.nextTok.raw = expected then (some (), tadvance st)
  else (none, tdiag node st)

/-- `PathParser` (`ry_parser/src/path.rs`, not under `src/`).  Modelled
from the spec (§3: a `Path` is "an ordered, non-empty sequence of such
identifiers separated by a structural delimiter"): an identifier followed
by further `.`-separated identifiers. -/
def pathParser : Nat → TState → Option PathAst × TState
  | 0, st => (none, st)
  | fuel + 1, st =>
    let start := st.nextTok.span.start
    match tconsumeIdent "path" st with
    | (none, st1) => (none, st1)
    | (some id1, st1) => pathLoop start [id1] fuel st1
where
  /-- The `.`-separated continuation of a path. -/
  pathLoop (start : Nat) (acc : List IdentifierAst) :
      Nat → TState → Option PathAst × TState
    | 0, st => (some ⟨tspanFrom start st, acc⟩, st)
    | fuel + 1, st =>
      if st.nextTok.raw = .dot then
        match tconsumeIdent "path" (tadvance st) with
        | (none, st1) => (none, st1)
        | (some idn, st1) => pathLoop start (acc ++ [idn]) fuel st1
      else (some ⟨tspanFrom start st, acc⟩, st)

mutual

/-- `TypeParser::parse` (`ry_parser/src/type.rs`): dispatch on the leading
token. -/
def typeParser : Nat → TState → Option TypeT × TState
  | 0, st => (none, st)
  | fuel + 1, st =>
    match st.nextTok.raw with
    | .lparen => parenTupleOrFunctionTypeParser fuel st
    | .ident _ =>
      match typePathParser fuel st with
      | (none, st1) => (none, st1)
      | (some tp, st1) => (some (.path tp), st1)
    | .kwDyn => traitObjectTypeParser fuel st
    | .lbracket => typeWithQualifiedPathParser fuel st
    | _ => (none, tdiag "type" st)

/-- `ParenthesizedTupleOrFunctionTypeParser::parse`
(`ry_parser/src/type.rs`): after `(`, parse the comma-separated element
types up to `)`; a following `:` makes a function type; otherwise exactly
one element is a tuple iff the source text between the element's end and
the current position contains a comma, zero or two-or-more elements are a
tuple. -/
def parenTupleOrFunctionTypeParser : Nat → TState → Option TypeT × TState
  | 0, st => (none, st)
  | fuel + 1, st =>
    let start := st.nextTok.span.start
    let st1 := tadvance st
    let r := typeElementsList fuel st1
    let st3 := tadvance r.2
    if st3.nextTok.raw = .colon then
      match typeParser fuel (tadvance st3) with
      | (none, st5) => (none, st5)
      | (some rt, st5) =>
        (some (.function (tspanFrom start st5) r.1 rt), st5)
    else
      match r.1 with
      | [element] =>
        if (tresolveSpan st3
            (tspanFrom element.spanOf.stop st3)).contains ',' then
          (some (.tuple (tspanFrom start st3) [element]), st3)
        else (some (.parenthesized (tspanFrom start st3) element), st3)
      | [] => (some (.tuple (tspanFrom start st3) []), st3)
      | e1 :: e2 :: es => (some (.tuple (tspanFrom start st3) (e1 :: e2 :: es)), st3)

/-- `TraitObjectTypeParser::parse` (`ry_parser/src/type.rs`). -/
def traitObjectTypeParser : Nat → TState → Option TypeT × TState
  | 0, st => (none, st)
  | fuel + 1, st =>
    let start := st.nextTok.span.start
    let st1 := tadvance st
    match typeBoundsParser fuel st1 with
    | (none, st2) => (none, st2)
    | (some bounds, st2) => (some (.traitObject (tspanFrom start st2) bounds), st2)

/-- `TypeWithQualifiedPathParser::parse` (`ry_parser/src/type.rs`). -/
def typeWithQualifiedPathParser : Nat → TState → Option TypeT × TState
  | 0, st => (none, st)
  | fuel + 1, st =>
    let start := st.nextTok.span.start
    let st1 := tadvance st
    match typeParser fuel st1 with
    | (none, s) => (none, s)
    | (some left, st2) =>
      match tconsume .kwAs "type with qualified path" st2 with
      | (none, s) => (none, s)
      | (some _, st3) =>
        match typePathParser fuel st3 with
        | (none, s) => (none, s)
        | (some right, st4) =>
          match tconsume .rbracket "type with qualified path" st4 with
          | (none, s) => (none, s)
          | (some _, st5) =>
            match tconsume .dot "type with qualified path" st5 with
            | (none, s) => (none, s)
            | (some _, st6) =>
              match typePathSegmentParser fuel st6 with
              | (none, s) => (none, s)
              | (some seg1, st7) =>
                match segmentsLoop [seg1] fuel st7 with
                | (none, s) => (none, s)
                | (some segs, st8) =>
                  (some (.withQualifiedPath (tspanFrom start st8) left right segs),
                    st8)

/-- `TypeBoundsParser::parse` (`ry_parser/src/type.rs`): `+`-separated
type paths. -/
def typeBoundsParser : Nat → TState → Option (List TypePath) × TState
  | 0, st => (none, st)
  | fuel + 1, st =>
    match typePathParser fuel st with
    | (none, s) => (none, s)
    | (some b1, st1) => boundsLoop [b1] fuel st1

/-- The `while state.next_token.raw == Token![+]` loop of
`TypeBoundsParser`. -/
def boundsLoop (acc : List TypePath) : Nat → TState →
    Option (List TypePath) × TState
  | 0, st => (some acc, st)
  | fuel + 1, st =>
    if st.nextTok.raw = .plus then
      match typePathParser fuel (tadvance st) with
      | (none, s) => (none, s)
      | (some b, st1) => boundsLoop (acc ++ [b]) fuel st1
    else (some acc, st)

/-- `TypePathParser::parse` (`ry_parser/src/type.rs`): `.`-separated type
path segments. -/
def typePathParser : Nat → TState → Option TypePath × TState
  | 0, st => (none, st)
  | fuel + 1, st =>
    let start := st.nextTok.span.start
    match typePathSegmentParser fuel st with
    | (none, s) => (none, s)
    | (some seg1, st1) =>
      match segmentsLoop [seg1] fuel st1 with
      | (none, s) => (none, s)
      | (some segs, st2) => (some (.mk (tspanFrom start st2) segs), st2)

/-- The `while state.next_token.raw == Token![.]` segment loop shared by
`TypePathParser` and `TypeWithQualifiedPathParser`. -/
def segmentsLoop (acc : List TypePathSegment) : Nat → TState →
    Option (List TypePathSegment) × TState
  | 0, st => (some acc, st)
  | fuel + 1, st =>
    if st.nextTok.raw = .dot then
      match typePathSegmentParser fuel (tadvance st) with
      | (none, s) => (none, s)
      | (some seg, st1) => segmentsLoop (acc ++ [seg]) fuel st1
    else (some acc, st)

/-- `TypePathSegmentParser::parse` (`ry_parser/src/type.rs`). -/
def typePathSegmentParser : Nat → TState → Option TypePathSegment × TState
  | 0, st => (none, st)
  | fuel + 1, st =>
    match pathParser fuel st with
    | (none, s) => (none, s)
    | (some path, st1) =>
      match genericArgumentsOpt fuel st1 with
      | (none, s) => (none, s)
      | (some ga, st2) =>
        (some (.mk (tspanFrom path.span.start st2) path ga), st2)

/-- `GenericArgumentsParser::optionally_parse` (`ry_parser/src/type.rs`):
no `[` means no generic arguments. -/
def genericArgumentsOpt : Nat → TState →
    Option (Option (List GenericArgument)) × TState
  | 0, st => (none, st)
  | fuel + 1, st =>
    if st.nextTok.raw ≠ .lbracket then (some none, st)
    else
      match genericArgumentsParser fuel st with
      | (none, s) => (none, s)
      | (some args, s) => (some (some args), s)

/-- `GenericArgumentsParser::parse` (`ry_parser/src/type.rs`). -/
def genericArgumentsParser : Nat → TState →
    Option (List GenericArgument) × TState
  | 0, st => (none, st)
  | fuel + 1, st =>
    let st1 := tadvance st
    let r := genericArgsList fuel st1
    (some r.1, tadvance r.2)

/-- The element production of `GenericArgumentsParser::parse`: a type,
reinterpreted as an associated-type binding `Name = Type` when it is a
single-segment, single-identifier, argument-free path type immediately
followed by `=`; a path of any other shape followed by `=` is a failed
element (`_ => None` in the source). -/
def genericArgumentElem : Nat → TState → Option GenericArgument × TState
  | 0, st => (none, st)
  | fuel + 1, st =>
    match typeParser fuel st with
    | (none, s) => (none, s)
    | (some ty, st1) =>
      match st1.nextTok.raw, ty with
      | .eqSign, .path tp =>
        match tp.segmentsOf with
        | [.mk _ ⟨_, [name]⟩ none] =>
          match typeParser fuel (tadvance st1) with
          | (none, s) => (none, s)
          | (some value, st2) => (some (.associatedType name value), st2)
        | _ => (none, st1)
      | _, _ => (some (.type ty), st1)

/-- The `parse_list!` macro (`ry_parser/src/macros.rs`, not under `src/`)
instantiated at `Token![')']` / `TypeParser` (the call in
`ParenthesizedTupleOrFunctionTypeParser`).  Modelled from the spec
(§4.2): "parse zero or more comma-separated elements up to the given
closing delimiter, tolerating a trailing comma"; the closing delimiter is
left for the caller (the call sites in `type.rs` follow with
`state.advance()`).  A failed element abandons the list at the current
position (§7); after an element, a missing comma or closer records a
diagnostic and abandons the list. -/
def typeElementsList : Nat → TState → List TypeT × TState
  | 0, st => ([], st)
  | fuel + 1, st =>
    if st.nextTok.raw = .rparen ∨ st.nextTok.raw = .endOfFile then ([], st)
    else
      match typeParser fuel st with
      | (none, st') => ([], st')
      | (some x, st') =>
        if st'.nextTok.raw = .comma then
          let r := typeElementsList fuel (tadvance st')
          (x :: r.1, r.2)
        else if st'.nextTok.raw = .rparen ∨ st'.nextTok.raw = .endOfFile then
          ([x], st')
        else ([x], tdiag "expected comma or closing delimiter" st')

/-- The `parse_list!` macro instantiated at `Token![']']` / the
generic-argument element production (the call in
`GenericArgumentsParser::parse`); modelled from the spec exactly as
`typeElementsList`. -/
def genericArgsList : Nat → TState → List GenericArgument × TState
  | 0, st => ([], st)
  | fuel + 1, st =>
    if st.nextTok.raw = .rbracket ∨ st.nextTok.raw = .endOfFile then ([], st)
    else
      match genericArgumentElem fuel st with
      | (none, st') => ([], st')
      | (some x, st') =>
        if st'.nextTok.raw = .comma then
          let r := genericArgsList fuel (tadvance st')
          (x :: r.1, r.2)
        else if st'.nextTok.raw = .rbracket ∨ st'.nextTok.raw = .endOfFile then
          ([x], st')
        else ([x], tdiag "expected comma or closing delimiter" st')

end

/-- The parse of a lone identifier (span `sp`, symbol `sym`) as a type: a
one-segment, one-identifier, argument-free `TypePath` type. -/
def identPathType (sp : RyLexer.Span) (sym : Nat) : TypeT :=
  .path (.mk sp [.mk sp ⟨sp, [⟨sp, sym⟩]⟩ none])

end RyTypeP

namespace RyItems

/-!
Embedding of `crates/ry_parser/src/item/mod.rs` (`ItemsParser`,
`ItemParser`) and `crates/ry_parser/src/expression/array.rs`
(`ArrayLiteralExpressionParser`), the `ParserState`/`ParseResult`
architecture.  `ParserState`, the `parse_list!` macro, `consume_docstring`
and the individual item sub-parsers (`EnumDeclarationParser`,
`ImportParser`, `StructDeclarationParser`, `TraitDeclarationParser`,
`FunctionItemParser`, `ImplItemParser`) and `ExpressionParser` live in
files that are not under `src/`; the state operations are modelled from
the spec, and `ItemParser` is parameterized over the six sub-parsers,
which the cited code only invokes.
-/

open RyLexer (Span)

/-- The raw tokens used by the item dispatch and the array-literal
grammar: the item keywords, `[`, `]`, `,`, an integer literal, an
identifier, doc comments, a generic punctuator and `EndOfFile`. -/
inductive IRaw where
  | kwPub | kwEnum | kwImport | kwStruct | kwTrait | kwFun | kwImpl
  | lbracket | rbracket | comma
  | int (v : Nat)
  | ident (name : String)
  | docComment (global : Bool)
  | punct (p : String)
  | endOfFile
deriving DecidableEq

/-- A token with its span. -/
structure ITok where
  inner : IRaw
  span : Span
deriving DecidableEq

/-- `ParseError::unexpected_token(got, expected, node)`
(`ry_parser/src/error.rs`, not under `src/`; shape read off the call in
`item/mod.rs`), plus an out-of-fuel marker that is an artifact of the
step-indexed embedding. -/
inductive IErr where
  | unexpectedToken (got : ITok) (expected : List IRaw) (node : String)
  | outOfFuel
deriving DecidableEq

/-- `Visibility` (`ry_ast`): private, or public with the span of the
`pub` keyword. -/
inductive Visibility where
  | priv
  | pub (span : Span)
deriving DecidableEq

/-- `WithDocstring<T>` (`ry_ast::declaration`): an item together with its
attached docstring. -/
structure WithDocstring (α : Type) where
  item : α
  docstring : List String
deriving DecidableEq

/-- `ParserState`, modelled from the spec (§2: "a one-token lookahead
buffer over the scanner"): the last consumed token `current`, the
lookahead `next`, and the pending tokens. -/
structure IState where
  current : ITok
  next : ITok
  rest : List ITok
deriving DecidableEq

/-- The perpetual end-of-file token. -/
def ieof : ITok := ⟨.endOfFile, ⟨0, 0⟩⟩

/-- `state.advance()` / `state.next_token()`: shift the lookahead.
Modelled from the spec. -/
def iadvance (st : IState) : IState :=
  ⟨st.next, st.rest.headD ieof, st.rest.tail⟩

/-- `state.consume_docstring()` (not under `src/`).  Modelled from the
spec (§4.1/glossary: doc comments attach documentation to the following
item): collect the consecutive local doc-comment tokens at the cursor.
The source returns a `ParseResult`; the model never fails. -/
def consumeDocstring : Nat → IState → List String × IState
  | 0, st => ([], st)
  | fuel + 1, st =>
    match st.next.inner with
    | .docComment false =>
      let r := consumeDocstring fuel (iadvance st)
      ("doc" :: r.1, r.2)
    | _ => ([], st)

/-- The six item sub-parsers invoked by `ItemParser::parse_with`
(`EnumDeclarationParser`, `ImportParser`, `StructDeclarationParser`,
`TraitDeclarationParser`, `FunctionItemParser`, `ImplItemParser`), whose
defining files are not under `src/`: `ItemParser` is parameterized over
them, each mapping a visibility and a parser state to a `ParseResult`
item and the successor state. -/
structure SubParsers (α : Type) where
  enumP : Visibility → IState → Except IErr α × IState
  importP : Visibility → IState → Except IErr α × IState
  structP : Visibility → IState → Except IErr α × IState
  traitP : Visibility → IState → Except IErr α × IState
  funP : Visibility → IState → Except IErr α × IState
  implP : Visibility → IState → Except IErr α × IState

/-- The `expected!(...)` set of the unrecognized-item diagnostic in
`ItemParser::parse_with` (`Import`, `Fun`, `Trait`, `Enum`, `Struct`). -/
def itemExpectedSet : List IRaw :=
  [.kwImport, .kwFun, .kwTrait, .kwEnum, .kwStruct]

/-- `ItemParser::parse_with` (`ry_parser/src/item/mod.rs`): consume an
optional `pub`, dispatch on the next keyword; an unrecognized token
produces `ParseError::unexpected_token(state.next, expected!(..),
"item")`, the offending token is skipped (`state.advance()`), and the
error is returned. -/
def itemParser {α : Type} (subs : SubParsers α) (st : IState) :
    Except IErr α × IState :=
  let vst : Visibility × IState :=
    if st.next.inner = .kwPub then (.pub st.next.span, iadvance st)
    else (.priv, st)
  match vst.2.next.inner with
  | .kwEnum => subs.enumP vst.1 vst.2
  | .kwImport => subs.importP vst.1 vst.2
  | .kwStruct => subs.structP vst.1 vst.2
  | .kwTrait => subs.traitP vst.1 vst.2
  | .kwFun => subs.funP vst.1 vst.2
  | .kwImpl => subs.implP vst.1 vst.2
  | _ =>
    (.error (.unexpectedToken vst.2.next itemExpectedSet "item"),
      iadvance vst.2)

/-- `ItemsParser::parse_with` (`ry_parser/src/item/mod.rs`): `while
state.next.inner != EndOfFile` push `ItemParser.parse_with(state)?`
(the `?` propagates an item error, aborting the loop and discarding the
items collected so far) and collect the next docstring. -/
def itemsParserLoop {α : Type} (subs : SubParsers α)
    (docstring : List String) (acc : List (WithDocstring α)) :
    Nat → IState → Except IErr (List (WithDocstring α)) × IState
  | 0, st => (.error .outOfFuel, st)
  | fuel + 1, st =>
    if st.next.inner = .endOfFile then (.ok acc, st)
    else
      match itemParser subs st with
      | (.error e, st') => (.error e, st')
      | (.ok item, st') =>
        let d := consumeDocstring (st'.rest.length + 1) st'
        itemsParserLoop subs d.1 (acc ++ [⟨item, docstring⟩]) fuel d.2

/-- `ItemsParser { first_docstring }.parse_with(state)`. -/
def itemsParser {α : Type} (subs : SubParsers α) (firstDocstring : List String)
    (st : IState) : Except IErr (List (WithDocstring α)) × IState :=
  itemsParserLoop subs firstDocstring [] (st.rest.length + 2) st

/-- The array-literal expression AST
(`ry_ast::expression::ArrayLiteralExpression` wrapped in
`RawExpression`/`Expression`): the element expressions and the node
span.  Elements are the literal expressions of the modelled
`ExpressionParser`. -/
inductive ArrExpr where
  | intLit (v : Nat) (span : Span)
  | array (literal : List ArrExpr) (span : Span)

/-- The elements of an array-literal expression. -/
def ArrExpr.elementsOf : ArrExpr → List ArrExpr
  | .intLit _ _ => []
  | .array l _ => l

/-- `ExpressionParser::default().parse_with(state)`
(`ry_parser/src/expression/mod.rs`, not under `src/`).  Modelled from the
spec (§3, §4.2: literal tokens parse as literal expression nodes):
the integer-literal production used as the element parser of the
array-literal claims. -/
def exprParserModel (st : IState) : Except IErr ArrExpr × IState :=
  match st.next.inner with
  | .int v => (.ok (.intLit v st.next.span), iadvance st)
  | _ => (.error (.unexpectedToken st.next [] "expression"), st)

/-- The `parse_list!` macro (`ry_parser/src/macros.rs`, not under `src/`)
instantiated at `Token![']']` / `ExpressionParser` (the call in
`ArrayLiteralExpressionParser::parse_with`).  Modelled from the spec
(§4.2): "parse zero or more comma-separated elements up to the given
closing delimiter, tolerating a trailing comma"; the closing delimiter is
left for the caller (the call site follows with `state.next_token()`); a
missing comma or closer after an element is a diagnosable error. -/
def exprList : Nat → IState → Except IErr (List ArrExpr) × IState
  | 0, st => (.error .outOfFuel, st)
  | fuel + 1, st =>
    if st.next.inner = .rbracket ∨ st.next.inner = .endOfFile then (.ok [], st)
    else
      match exprParserModel st with
      | (.error e, st') => (.error e, st')
      | (.ok x, st') =>
        if st'.next.inner = .comma then
          match exprList fuel (iadvance st') with
          | (.error e, st'') => (.error e, st'')
          | (.ok xs, st'') => (.ok (x :: xs), st'')
        else if st'.next.inner = .rbracket ∨ st'.next.inner = .endOfFile then
          (.ok [x], st')
        else
          (.error (.unexpectedToken st'.next [.comma, .rbracket]
            "array literal"), st')

/-- `ArrayLiteralExpressionParser::parse_with`
(`ry_parser/src/expression/array.rs`): `state.next_token()` past `[`,
read the start offset from the (new) lookahead, parse the comma-separated
elements, `state.next_token()` past `]`, and build the node with span
`start .. state.current.span.end`. -/
def arrayLiteralParser (fuel : Nat) (st : IState) :
    Except IErr ArrExpr × IState :=
  let st1 := iadvance st
  let start := st1.next.span.start
  match exprList fuel st1 with
  | (.error e, st2) => (.error e, st2)
  | (.ok lits, st2) =>
    let st3 := iadvance st2
    (.ok (.array lits ⟨start, st3.current.span.stop⟩), st3)

/-- The parser entry state over a token list: a dummy current token and
the first token as lookahead. -/
def mkIState (toks : List ITok) : IState :=
  ⟨ieof, toks.headD ieof, toks.tail⟩

/-- A minimal `FunctionItemParser` instance (its file,
`ry_parser/src/item/function_decl.rs`, is not under `src/`).  Modelled
from the spec (§4.2 grammar shape): accepts exactly the minimal
well-formed function item `fun name() {}` used by the item-recovery
claims, producing a unit item. -/
def funItemModel : Visibility → IState → Except IErr Unit × IState :=
  fun _ st =>
    let st1 := iadvance st
    match st1.next.inner with
    | .ident _ =>
      let st2 := iadvance st1
      if st2.next.inner = .punct "(" then
        let st3 := iadvance st2
        if st3.next.inner = .punct ")" then
          let st4 := iadvance st3
          if st4.next.inner = .punct "\x7b" then
            let st5 := iadvance st4
            if st5.next.inner = .punct "\x7d" then (.ok (), iadvance st5)
            else (.error (.unexpectedToken st5.next [] "function"), st5)
          else (.error (.unexpectedToken st4.next [] "function"), st4)
        else (.error (.unexpectedToken st3.next [] "function"), st3)
      else (.error (.unexpectedToken st2.next [] "function"), st2)
    | _ => (.error (.unexpectedToken st1.next [] "function name"), st1)

/-- A sub-parser that always fails; stands in for sub-parsers that are
never invoked on the inputs of the claims below. -/
def errSub : Visibility → IState → Except IErr Unit × IState :=
  fun _ st => (.error (.unexpectedToken st.next [] "item"), st)

/-- The concrete sub-parser bundle used on the claims' inputs: the
minimal function-item parser for `fun`, never-invoked placeholders for
the rest. -/
def demoSubs : SubParsers Unit :=
  ⟨errSub, errSub, errSub, errSub, funItemModel, errSub⟩

end RyItems

/-!
## Theorems

Helper lemmas about the scanner state, followed by the claim theorems.
-/

namespace RyLexer

theorem isWhitespace_NUL : isWhitespace NUL = false := by decide

theorem isWhitespace_ne_NUL {c : Char} (h : isWhitespace c = true) :
    c ≠ NUL := by
  intro he
  rw [he] at h
  exact absurd h (by decide)

theorem rest_ne_nil_of_cur_ne_NUL {st : LexState} (h : cur st ≠ NUL) :
    st.rest ≠ [] := by
  intro hnil
  exact h (by simp [cur, hnil])

theorem tail_length_lt_of_ne_nil {l : List Char} (h : l ≠ []) :
    l.tail.length < l.length := by
  cases l with
  | nil => exact absurd rfl h
  | cons a t => simp [List.tail]

theorem cur_advance (st : LexState) : cur (advance st) = nxt st := by
  cases h : st.rest with
  | nil => simp [cur, nxt, advance, h]
  | cons a t => simp [cur, nxt, advance, h]

theorem advance_rest_suffix (st : LexState) : (advance st).rest <:+ st.rest :=
  List.tail_suffix _

theorem setScannedChar_rest (c : Char) (st : LexState) :
    (setScannedChar c st).rest = st.rest := rfl

theorem pushScannedString_rest (c : Char) (st : LexState) :
    (pushScannedString c st).rest = st.rest := rfl

theorem good_setScannedChar (c : Char) (st : LexState) :
    good (setScannedChar c st) = good st := rfl

theorem good_pushScannedString (c : Char) (st : LexState) :
    good (pushScannedString c st) = good st := rfl

theorem good_advance {st : LexState} (h : st.rest ≠ []) :
    good (advance st) = good st := by
  cases hr : st.rest with
  | nil => exact absurd hr h
  | cons c t =>
    simp only [good, advance, cur, byteLen, hr, List.headD_cons, List.tail_cons,
      List.map_cons, List.sum_cons]
    omega

theorem good_advance_of_cur_ne_NUL {st : LexState} (h : cur st ≠ NUL) :
    good (advance st) = good st :=
  good_advance (rest_ne_nil_of_cur_ne_NUL h)

theorem good_advance_nil {st : LexState} (h : st.rest = []) :
    good (advance st) = good st + 1 := by
  have h1 : NUL.utf8Size = 1 := by decide
  simp only [good, advance, cur, byteLen, h, List.headD_nil, List.tail_nil,
    List.map_nil, List.sum_nil, h1]
  omega

theorem eatWhitespacesF_rest_suffix (fuel : Nat) (st : LexState) :
    (eatWhitespacesF fuel st).rest <:+ st.rest := by
  induction fuel generalizing st with
  | zero => exact List.suffix_refl _
  | succ fuel ih =>
    unfold eatWhitespacesF
    split
    · exact (ih (advance st)).trans (advance_rest_suffix st)
    · exact List.suffix_refl _

theorem eatWhitespacesF_good (fuel : Nat) (st : LexState) :
    good (eatWhitespacesF fuel st) = good st := by
  induction fuel generalizing st with
  | zero => rfl
  | succ fuel ih =>
    unfold eatWhitespacesF
    split
    · next h =>
      rw [ih (advance st), good_advance_of_cur_ne_NUL (isWhitespace_ne_NUL h)]
    · rfl

theorem eatWhitespaces_rest_suffix (st : LexState) :
    (eatWhitespaces st).rest <:+ st.rest :=
  eatWhitespacesF_rest_suffix _ st

theorem eatWhitespaces_good (st : LexState) :
    good (eatWhitespaces st) = good st :=
  eatWhitespacesF_good _ st

theorem eatWhitespaces_of_cur_NUL {st : LexState} (h : cur st = NUL) :
    eatWhitespaces st = st := by
  unfold eatWhitespaces eatWhitespacesF
  rw [h, isWhitespace_NUL]
  simp

theorem advanceWhileF_rest_suffix (f : Char → Char → Bool) (fuel : Nat)
    (st : LexState) : (advanceWhileF f fuel st).2.rest <:+ st.rest := by
  induction fuel generalizing st with
  | zero => exact List.suffix_refl _
  | succ fuel ih =>
    unfold advanceWhileF
    split
    · exact (ih (advance st)).trans (advance_rest_suffix st)
    · exact List.suffix_refl _

theorem advanceWhileF_good (f : Char → Char → Bool) (fuel : Nat)
    (st : LexState) : good (advanceWhileF f fuel st).2 = good st := by
  induction fuel generalizing st with
  | zero => rfl
  | succ fuel ih =>
    unfold advanceWhileF
    split
    · next h => rw [ih (advance st), good_advance_of_cur_ne_NUL h.2]
    · rfl

theorem advanceWhile_rest_suffix (f : Char → Char → Bool) (st : LexState) :
    (advanceWhile f st).2.rest <:+ st.rest :=
  advanceWhileF_rest_suffix f _ st

theorem advanceWhile_good (f : Char → Char → Bool) (st : LexState) :
    good (advanceWhile f st).2 = good st :=
  advanceWhileF_good f _ st

theorem eatHexDigits_rest_suffix (k : RawLexError) (n : Nat) (st : LexState) :
    (eatHexDigits k n st).2.rest <:+ st.rest := by
  induction n generalizing st with
  | zero => exact List.suffix_refl _
  | succ n ih =>
    unfold eatHexDigits
    split
    · split
      all_goals
        next heq =>
          have h1 := ih (advance st)
          rw [heq] at h1
          exact h1.trans (advance_rest_suffix st)
    · exact List.suffix_refl _

theorem isAsciiHexDigit_ne_NUL {c : Char} (h : isAsciiHexDigit c = true) :
    c ≠ NUL := by
  intro he
  rw [he] at h
  exact absurd h (by decide)

theorem eatHexDigits_good (k : RawLexError) (n : Nat) (st : LexState) :
    good (eatHexDigits k n st).2 = good st := by
  induction n generalizing st with
  | zero => rfl
  | succ n ih =>
    unfold eatHexDigits
    split
    · next h =>
      split
      all_goals
        next heq =>
          have h1 := ih (advance st)
          rw [heq] at h1
          rw [h1, good_advance_of_cur_ne_NUL (isAsciiHexDigit_ne_NUL h)]
    · rfl

theorem eatBracketedHex_rest_suffix (o d c : RawLexError) (n : Nat)
    (st : LexState) : (eatBracketedHex o d c n st).2.rest <:+ st.rest.tail := by
  have base : ∀ st2 : LexState,
      (eatHexDigits d n (advance (advance st))).2 = st2 →
      st2.rest <:+ st.rest.tail := by
    intro st2 h
    have h1 := eatHexDigits_rest_suffix d n (advance (advance st))
    rw [h] at h1
    exact h1.trans (advance_rest_suffix (advance st))
  unfold eatBracketedHex
  split
  · exact List.suffix_refl _
  · split
    · next heq => exact base _ (by rw [heq])
    · next heq =>
      split
      · exact base _ (by rw [heq])
      · exact base _ (by rw [heq])

theorem lbraceC_ne_NUL : lbraceC ≠ NUL := by decide

theorem eatBracketedHex_good (o d c : RawLexError) (n : Nat) (st : LexState)
    (h : cur st ≠ NUL) : good (eatBracketedHex o d c n st).2 = good st := by
  have hg1 : good (advance st) = good st := good_advance_of_cur_ne_NUL h
  unfold eatBracketedHex
  split
  · exact hg1
  · next hbr =>
    rw [not_not] at hbr
    have base : ∀ st2 : LexState,
        (eatHexDigits d n (advance (advance st))).2 = st2 →
        good st2 = good st := by
      intro st2 heq
      have h1 := eatHexDigits_good d n (advance (advance st))
      rw [heq] at h1
      rw [h1, good_advance_of_cur_ne_NUL (by rw [hbr]; exact lbraceC_ne_NUL),
        hg1]
    split
    · next heq => exact base _ (by rw [heq])
    · next heq =>
      split
      · exact base _ (by rw [heq])
      · exact base _ (by rw [heq])

theorem rbraceC_ne_NUL : rbraceC ≠ NUL := by decide

theorem classifyEscape_NUL : classifyEscape NUL = .empty := by decide

theorem cur_ne_NUL_of_classify_ne_empty {c : Char} {k : EscKind}
    (hk : classifyEscape c = k) (hne : k ≠ EscKind.empty) : c ≠ NUL := by
  intro hc
  rw [hc, classifyEscape_NUL] at hk
  exact hne hk.symm

theorem eatBracketedHex_ok_cur {o d c : RawLexError} {n : Nat}
    {st : LexState} {buf : List Char} {st3 : LexState}
    (h : eatBracketedHex o d c n st = (.ok buf, st3)) : cur st3 = rbraceC := by
  unfold eatBracketedHex at h
  split at h
  · simp at h
  · split at h
    · simp at h
    · split at h
      · simp at h
      · next hbr =>
        rw [not_not] at hbr
        rw [Prod.mk.injEq] at h
        rw [← h.2]
        exact hbr

theorem escapeArmFinish_rest_suffix (k : RawLexError) (sp : LexState → Span)
    (r : Except LexError (List Char) × LexState) :
    (escapeArmFinish k sp r).2.rest <:+ r.2.rest := by
  unfold escapeArmFinish
  split
  · exact List.suffix_refl _
  · split
    · exact advance_rest_suffix _
    · exact advance_rest_suffix _

theorem escapeArm_good (k : RawLexError) (sp : LexState → Span)
    (o d c : RawLexError) (n : Nat) (st : LexState) (h : cur st ≠ NUL) :
    good (escapeArmFinish k sp (eatBracketedHex o d c n st)).2 = good st := by
  cases hb : eatBracketedHex o d c n st with
  | mk r st' =>
    have hg : good st' = good st := by
      have := eatBracketedHex_good o d c n st h
      rw [hb] at this
      exact this
    cases r with
    | error e => simpa [escapeArmFinish] using hg
    | ok buf =>
      have hcur : cur st' = rbraceC := eatBracketedHex_ok_cur hb
      have hadv : good (advance st') = good st' :=
        good_advance_of_cur_ne_NUL (by rw [hcur]; exact rbraceC_ne_NUL)
      cases hc : charFromNat (hexNat buf) with
      | some ch => simp only [escapeArmFinish, hc]; rw [hadv, hg]
      | none => simp only [escapeArmFinish, hc]; rw [hadv, hg]

theorem eatEscape_rest_suffix (st0 : LexState) :
    (eatEscape st0).2.rest <:+ st0.rest.tail := by
  have adv2 : (advance (advance st0)).rest <:+ st0.rest.tail :=
    advance_rest_suffix (advance st0)
  have harm : ∀ (k : RawLexError) (sp : LexState → Span)
      (o d c : RawLexError) (n : Nat),
      (escapeArmFinish k sp (eatBracketedHex o d c n (advance st0))).2.rest <:+
        st0.rest.tail := by
    intro k sp o d c n
    exact ((escapeArmFinish_rest_suffix k sp _).trans
      (eatBracketedHex_rest_suffix o d c n (advance st0))).trans
      (List.tail_suffix _)
  unfold eatEscape
  cases classifyEscape (cur (advance st0)) with
  | simple ch => exact adv2
  | empty => exact adv2
  | uni n => exact harm _ _ _ _ _ _
  | byte => exact harm _ _ _ _ _ _
  | unknown => exact adv2

theorem eatEscape_good (st0 : LexState) (h : cur st0 ≠ NUL) :
    good (eatEscape st0).2 = good st0 ∨
      ((eatEscape st0).1 =
          .error ⟨.EmptyEscapeSequence, currentCharSpan (advance st0)⟩ ∧
        good (eatEscape st0).2 = good st0 + 1) := by
  have hg1 : good (advance st0) = good st0 := good_advance_of_cur_ne_NUL h
  unfold eatEscape
  cases hk : classifyEscape (cur (advance st0)) with
  | simple ch =>
    left
    have hcc : cur (advance st0) ≠ NUL :=
      cur_ne_NUL_of_classify_ne_empty hk (by intro hcon; exact EscKind.noConfusion hcon)
    rw [good_advance_of_cur_ne_NUL hcc, hg1]
  | empty =>
    by_cases hnil : (advance st0).rest = []
    · right
      exact ⟨rfl, by rw [good_advance_nil hnil, hg1]⟩
    · left
      rw [good_advance hnil, hg1]
  | uni n =>
    left
    have hcc : cur (advance st0) ≠ NUL :=
      cur_ne_NUL_of_classify_ne_empty hk (by intro hcon; exact EscKind.noConfusion hcon)
    rw [escapeArm_good _ _ _ _ _ _ _ hcc, hg1]
  | byte =>
    left
    have hcc : cur (advance st0) ≠ NUL :=
      cur_ne_NUL_of_classify_ne_empty hk (by intro hcon; exact EscKind.noConfusion hcon)
    rw [escapeArm_good _ _ _ _ _ _ _ hcc, hg1]
  | unknown =>
    left
    have hcc : cur (advance st0) ≠ NUL :=
      cur_ne_NUL_of_classify_ne_empty hk (by intro hcon; exact EscKind.noConfusion hcon)
    rw [good_advance_of_cur_ne_NUL hcc, hg1]

theorem eatEscape_suffix_of_eq {st : LexState} {r : Except LexError Char}
    {st' : LexState} (h : eatEscape st = (r, st')) : st'.rest <:+ st.rest := by
  have h1 := eatEscape_rest_suffix st
  rw [h] at h1
  exact h1.trans (List.tail_suffix _)

theorem eatStringLoopF_rest_suffix (fuel : Nat) (st : LexState) :
    (eatStringLoopF fuel st).2.rest <:+ st.rest := by
  induction fuel generalizing st with
  | zero => exact List.suffix_refl _
  | succ fuel ih =>
    unfold eatStringLoopF
    split
    · exact List.suffix_refl _
    · split
      · exact List.suffix_refl _
      · split
        · cases he : eatEscape st with
          | mk r st' =>
            have hs : st'.rest <:+ st.rest := eatEscape_suffix_of_eq he
            cases r with
            | ok c =>
              have h2 := ih (pushScannedString c st')
              rw [pushScannedString_rest] at h2
              exact h2.trans hs
            | error e => exact hs
        · have h2 := ih (pushScannedString (cur st) (advance st))
          rw [pushScannedString_rest] at h2
          exact h2.trans (advance_rest_suffix st)

theorem eatStringLoopF_good (fuel : Nat) (st : LexState) :
    good (eatStringLoopF fuel st).2 = good st ∨
      ((∃ e, (eatStringLoopF fuel st).1 = some e ∧
          e.raw = RawLexError.EmptyEscapeSequence) ∧
        good (eatStringLoopF fuel st).2 = good st + 1) := by
  induction fuel generalizing st with
  | zero => left; rfl
  | succ fuel ih =>
    unfold eatStringLoopF
    split
    · left; rfl
    · next hEnd =>
      have hne : cur st ≠ NUL := fun hc => hEnd (Or.inl hc)
      split
      · left; rfl
      · split
        · cases he : eatEscape st with
          | mk r st' =>
            have hesc := eatEscape_good st hne
            rw [he] at hesc
            cases r with
            | ok c =>
              have hg : good st' = good st := by
                rcases hesc with hg | ⟨hcon, _⟩
                · exact hg
                · exact absurd hcon (by simp)
              have h2 := ih (pushScannedString c st')
              rw [good_pushScannedString, hg] at h2
              exact h2
            | error e =>
              rcases hesc with hg | ⟨he2, hg⟩
              · left; exact hg
              · right
                refine ⟨⟨e, rfl, ?_⟩, hg⟩
                have : e = ⟨.EmptyEscapeSequence, currentCharSpan (advance st)⟩ := by
                  simpa using he2
                rw [this]
        · have h2 := ih (pushScannedString (cur st) (advance st))
          rw [good_pushScannedString, good_advance_of_cur_ne_NUL hne] at h2
          exact h2

theorem eatString_rest_suffix (st0 : LexState) :
    (eatString st0).2.rest <:+ st0.rest.tail := by
  unfold eatString
  have hbase : (eatStringLoop (advance { st0 with scannedString := [] })).2.rest
      <:+ st0.rest.tail := by
    have h1 := eatStringLoopF_rest_suffix
      ((advance { st0 with scannedString := [] }).rest.length + 1)
      (advance { st0 with scannedString := [] })
    exact h1
  split
  · next heq =>
    have := hbase
    rw [heq] at this
    exact this
  · next heq =>
    have hb := hbase
    rw [heq] at hb
    split
    · exact hb
    · exact (advance_rest_suffix _).trans hb

theorem eatString_good (st0 : LexState) (h : cur st0 ≠ NUL) :
    good (eatString st0).2 = good st0 ∨
      ((eatString st0).1.raw = .Error .EmptyEscapeSequence ∧
        good (eatString st0).2 = good st0 + 1) := by
  have hcur : cur { st0 with scannedString := ([] : List Char) } = cur st0 := rfl
  have hadv : good (advance { st0 with scannedString := ([] : List Char) })
      = good st0 := by
    rw [good_advance_of_cur_ne_NUL (by rw [hcur]; exact h)]
    rfl
  have hloop := eatStringLoopF_good
    ((advance { st0 with scannedString := [] }).rest.length + 1)
    (advance { st0 with scannedString := [] })
  unfold eatString
  split
  · next e st' heq =>
    rw [show eatStringLoop (advance { st0 with scannedString := [] })
        = eatStringLoopF ((advance { st0 with scannedString := [] }).rest.length + 1)
          (advance { st0 with scannedString := [] }) from rfl] at heq
    rw [heq] at hloop
    rcases hloop with hg | ⟨⟨e2, he2, hraw⟩, hg⟩
    · left
      rw [hg] at *
      exact hadv ▸ rfl
    · right
      have : e = e2 := by simpa using he2
      subst this
      refine ⟨by simpa using hraw, ?_⟩
      simp only []
      rw [hg, hadv]
  · next st1 heq =>
    rw [show eatStringLoop (advance { st0 with scannedString := [] })
        = eatStringLoopF ((advance { st0 with scannedString := [] }).rest.length + 1)
          (advance { st0 with scannedString := [] }) from rfl] at heq
    rw [heq] at hloop
    rcases hloop with hg | ⟨⟨e2, he2, _⟩, _⟩
    · left
      split
      · rw [hg, hadv]
      · next hc =>
        have hne1 : cur st1 ≠ NUL := fun hx => hc (Or.inl hx)
        rw [good_advance_of_cur_ne_NUL hne1, hg, hadv]
    · exact absurd he2 (by simp)

theorem eatCharLoopF_state_suffix (sl fuel : Nat) (st : LexState) (size : Nat) :
    (charLoopState (eatCharLoopF sl fuel st size)).rest <:+ st.rest := by
  induction fuel generalizing st size with
  | zero => exact List.suffix_refl _
  | succ fuel ih =>
    unfold eatCharLoopF
    split
    · exact List.suffix_refl _
    · split
      · exact List.suffix_refl _
      · split
        · cases he : eatEscape st with
          | mk r st' =>
            have hs : st'.rest <:+ st.rest := eatEscape_suffix_of_eq he
            cases r with
            | ok c =>
              have h2 := ih (setScannedChar c st') (size + 1)
              rw [setScannedChar_rest] at h2
              exact h2.trans hs
            | error e => exact hs
        · have h2 := ih (setScannedChar (cur st) (advance st)) (size + 1)
          rw [setScannedChar_rest] at h2
          exact h2.trans (advance_rest_suffix st)

theorem eatCharLoopF_good (sl fuel : Nat) (st : LexState) (size : Nat) :
    good (charLoopState (eatCharLoopF sl fuel st size)) = good st ∨
      ((∃ t, charLoopToken (eatCharLoopF sl fuel st size) = some t ∧
          t.raw = .Error .EmptyEscapeSequence) ∧
        good (charLoopState (eatCharLoopF sl fuel st size)) = good st + 1) := by
  induction fuel generalizing st size with
  | zero => left; rfl
  | succ fuel ih =>
    unfold eatCharLoopF
    split
    · left; rfl
    · next hEnd =>
      split
      · left; rfl
      · next hEnd2 =>
        have hne : cur st ≠ NUL := fun hc => hEnd2 (Or.inr hc)
        split
        · cases he : eatEscape st with
          | mk r st' =>
            have hesc := eatEscape_good st hne
            rw [he] at hesc
            cases r with
            | ok c =>
              have hg : good st' = good st := by
                rcases hesc with hg | ⟨hcon, _⟩
                · exact hg
                · exact absurd hcon (by simp)
              have h2 := ih (setScannedChar c st') (size + 1)
              rw [good_setScannedChar, hg] at h2
              exact h2
            | error e =>
              rcases hesc with hg | ⟨he2, hg⟩
              · left; exact hg
              · right
                refine ⟨⟨⟨.Error e.raw, e.span⟩, rfl, ?_⟩, hg⟩
                have : e = ⟨.EmptyEscapeSequence, currentCharSpan (advance st)⟩ := by
                  simpa using he2
                rw [this]
        · have h2 := ih (setScannedChar (cur st) (advance st)) (size + 1)
          rw [good_setScannedChar, good_advance_of_cur_ne_NUL hne] at h2
          exact h2

theorem eatCharLoopF_ok_cur {sl fuel : Nat} {st : LexState} {size : Nat}
    {st1 : LexState} {sz : Nat} (hfuel : st.rest.length < fuel)
    (h : eatCharLoopF sl fuel st size = .ok (st1, sz)) : cur st1 = apos := by
  induction fuel generalizing st size with
  | zero => omega
  | succ fuel ih =>
    unfold eatCharLoopF at h
    split at h
    · next hc =>
      have h1 : st = st1 := by
        simp only [Except.ok.injEq, Prod.mk.injEq] at h
        exact h.1
      rw [← h1]
      exact hc
    · split at h
      · simp at h
      · next hEnd2 =>
        have hne : cur st ≠ NUL := fun hcc => hEnd2 (Or.inr hcc)
        have hrest : st.rest ≠ [] := rest_ne_nil_of_cur_ne_NUL hne
        split at h
        · cases he : eatEscape st with
          | mk r st' =>
            rw [he] at h
            cases r with
            | ok c =>
              refine ih ?_ h
              have hs : st'.rest <:+ st.rest.tail := by
                have h1 := eatEscape_rest_suffix st
                rw [he] at h1
                exact h1
              have h2 := hs.length_le
              have h3 := tail_length_lt_of_ne_nil hrest
              rw [setScannedChar_rest]
              omega
            | error e => exact absurd h (by simp)
        · refine ih ?_ h
          rw [setScannedChar_rest]
          have h3 := tail_length_lt_of_ne_nil hrest
          show (advance st).rest.length < fuel
          have h4 : (advance st).rest.length = st.rest.tail.length := rfl
          omega

theorem eatCharLoopF_err_raw {sl fuel : Nat} {st : LexState} {size : Nat}
    {t : Token} {s : LexState}
    (h : eatCharLoopF sl fuel st size = .error (t, s)) :
    ∃ e, t.raw = .Error e := by
  induction fuel generalizing st size with
  | zero => simp [eatCharLoopF] at h
  | succ fuel ih =>
    unfold eatCharLoopF at h
    split at h
    · simp at h
    · split at h
      · refine ⟨.UnterminatedCharLiteral, ?_⟩
        simp only [Except.error.injEq, Prod.mk.injEq] at h
        rw [← h.1]
      · split at h
        · cases he : eatEscape st with
          | mk r st' =>
            rw [he] at h
            cases r with
            | ok c => exact ih h
            | error e =>
              refine ⟨e.raw, ?_⟩
              simp only [Except.error.injEq, Prod.mk.injEq] at h
              rw [← h.1]
        · exact ih h

theorem eatCharLit_rest_suffix (st0 : LexState) :
    (eatCharLit st0).2.rest <:+ st0.rest.tail := by
  unfold eatCharLit
  have hbase := eatCharLoopF_state_suffix st0.loc
    ((advance st0).rest.length + 1) (advance st0) 0
  split
  · next ts heq =>
    rw [show eatCharLoop st0.loc (advance st0) 0
        = eatCharLoopF st0.loc ((advance st0).rest.length + 1) (advance st0) 0
      from rfl] at heq
    rw [heq] at hbase
    exact hbase
  · next st1 size heq =>
    rw [show eatCharLoop st0.loc (advance st0) 0
        = eatCharLoopF st0.loc ((advance st0).rest.length + 1) (advance st0) 0
      from rfl] at heq
    rw [heq] at hbase
    have hb : st1.rest <:+ st0.rest.tail := hbase
    split
    · exact (advance_rest_suffix _).trans hb
    · split
      · exact (advance_rest_suffix _).trans hb
      · exact (advance_rest_suffix _).trans hb

theorem apos_ne_NUL : apos ≠ NUL := by decide

theorem eatCharLit_good (st0 : LexState) (h : cur st0 ≠ NUL) :
    good (eatCharLit st0).2 = good st0 ∨
      ((eatCharLit st0).1.raw = .Error .EmptyEscapeSequence ∧
        good (eatCharLit st0).2 = good st0 + 1) := by
  have hadv : good (advance st0) = good st0 := good_advance_of_cur_ne_NUL h
  have hloop := eatCharLoopF_good st0.loc ((advance st0).rest.length + 1)
    (advance st0) 0
  unfold eatCharLit
  split
  · next ts heq =>
    rw [show eatCharLoop st0.loc (advance st0) 0
        = eatCharLoopF st0.loc ((advance st0).rest.length + 1) (advance st0) 0
      from rfl] at heq
    rw [heq] at hloop
    rcases hloop with hg | ⟨⟨t2, ht2, hraw⟩, hg⟩
    · left
      calc good ts.2 = good (advance st0) := hg
        _ = good st0 := hadv
    · right
      have ht : ts.1 = t2 := by
        cases ts with
        | mk t s => simpa [charLoopToken] using ht2
      refine ⟨by rw [ht, hraw], ?_⟩
      calc good ts.2 = good (advance st0) + 1 := hg
        _ = good st0 + 1 := by rw [hadv]
  · next st1 size heq =>
    rw [show eatCharLoop st0.loc (advance st0) 0
        = eatCharLoopF st0.loc ((advance st0).rest.length + 1) (advance st0) 0
      from rfl] at heq
    have hcur : cur st1 = apos :=
      eatCharLoopF_ok_cur (Nat.lt_succ_self _) heq
    rw [heq] at hloop
    rcases hloop with hg | ⟨⟨t2, ht2, _⟩, _⟩
    · left
      have hg2 : good st1 = good st0 := by
        calc good st1 = good (advance st0) := hg
          _ = good st0 := hadv
      have hadv1 : good (advance st1) = good st1 :=
        good_advance_of_cur_ne_NUL (by rw [hcur]; exact apos_ne_NUL)
      split
      · rw [hadv1, hg2]
      · split
        · rw [hadv1, hg2]
        · rw [hadv1, hg2]
    · exact absurd ht2 (by simp [charLoopToken])

theorem btick_ne_NUL : btick ≠ NUL := by decide

theorem eatWrappedId_rest_suffix (st0 : LexState) :
    (eatWrappedId st0).2.rest <:+ st0.rest.tail := by
  have hb : (advanceWhile (fun c _ => c.isAlphanum || c = Char.ofNat 95)
      (advance st0)).2.rest <:+ st0.rest.tail :=
    advanceWhile_rest_suffix _ (advance st0)
  simp only [eatWrappedId]
  split
  · exact hb
  · split
    · exact hb
    · exact (advance_rest_suffix _).trans hb

theorem eatWrappedId_good (st0 : LexState) (h : cur st0 ≠ NUL) :
    good (eatWrappedId st0).2 = good st0 := by
  have hb : good (advanceWhile (fun c _ => c.isAlphanum || c = Char.ofNat 95)
      (advance st0)).2 = good st0 := by
    rw [advanceWhile_good, good_advance_of_cur_ne_NUL h]
  simp only [eatWrappedId]
  split
  · exact hb
  · split
    · exact hb
    · next hbt _ =>
      rw [not_not] at hbt
      show good (advance _) = good st0
      rw [good_advance_of_cur_ne_NUL (by rw [hbt]; exact btick_ne_NUL), hb]

theorem eatComment_rest_suffix (st : LexState) :
    (eatComment st).2.rest <:+ st.rest.tail := by
  simp only [eatComment]
  exact advanceWhile_rest_suffix _ (advance st)

theorem eatComment_good (st : LexState) (h : cur st ≠ NUL) :
    good (eatComment st).2 = good st := by
  simp only [eatComment]
  rw [advanceWhile_good, good_advance_of_cur_ne_NUL h]

theorem eatDocComment_rest_suffix (g : Bool) (st : LexState) :
    (eatDocComment g st).2.rest <:+ st.rest.tail := by
  simp only [eatDocComment]
  exact ((advanceWhile_rest_suffix _ (advance (advance st))).trans
    (advance_rest_suffix (advance st))).trans (List.suffix_refl _)

theorem eatDocComment_good (g : Bool) (st : LexState) (h1 : cur st ≠ NUL)
    (h2 : nxt st ≠ NUL) : good (eatDocComment g st).2 = good st := by
  simp only [eatDocComment]
  rw [advanceWhile_good,
    good_advance_of_cur_ne_NUL (by rw [cur_advance]; exact h2),
    good_advance_of_cur_ne_NUL h1]

theorem eatSlashSlash_rest_suffix (st : LexState) :
    (eatSlashSlash st).2.rest <:+ st.rest.tail := by
  unfold eatSlashSlash
  split
  · exact (eatDocComment_rest_suffix _ _).trans (List.tail_suffix _)
  · split
    · exact (eatDocComment_rest_suffix _ _).trans (List.tail_suffix _)
    · exact (eatComment_rest_suffix _).trans (List.tail_suffix _)

theorem eatSlashSlash_good (st : LexState) (h1 : cur st ≠ NUL)
    (h2 : nxt st = Char.ofNat 47) : good (eatSlashSlash st).2 = good st := by
  have hc1 : cur (advance st) ≠ NUL := by
    rw [cur_advance, h2]; decide
  have hg1 : good (advance st) = good st := good_advance_of_cur_ne_NUL h1
  unfold eatSlashSlash
  split
  · next hx =>
    rw [eatDocComment_good _ _ hc1 (by rw [hx]; decide), hg1]
  · split
    · next hx =>
      rw [eatDocComment_good _ _ hc1 (by rw [hx]; decide), hg1]
    · rw [eatComment_good _ hc1, hg1]

theorem isIdStart_isIdContinue {c : Char} (h : isIdStart c = true) :
    isIdContinue c = true := by
  simp only [isIdStart, isXidStart, Bool.or_eq_true, decide_eq_true_eq] at h
  rcases h with h | h
  · simp [isIdContinue, isXidContinue, h]
  · simp [isIdContinue, isXidContinue, Char.isAlphanum, h]

theorem isIdStart_ne_NUL {c : Char} (h : isIdStart c = true) : c ≠ NUL := by
  intro he
  rw [he] at h
  exact absurd h (by decide)

theorem advanceWhile_pos_snd {f : Char → Char → Bool} {st : LexState}
    (hf : f (cur st) (nxt st) = true) (hne : cur st ≠ NUL) :
    (advanceWhile f st).2 = (advanceWhileF f st.rest.length (advance st)).2 := by
  show (advanceWhileF f (st.rest.length + 1) st).2 = _
  rw [advanceWhileF, if_pos ⟨hf, hne⟩]

theorem advanceWhile_rest_suffix_strict {f : Char → Char → Bool}
    {st : LexState} (hf : f (cur st) (nxt st) = true) (hne : cur st ≠ NUL) :
    (advanceWhile f st).2.rest <:+ st.rest.tail := by
  rw [advanceWhile_pos_snd hf hne]
  exact advanceWhileF_rest_suffix f st.rest.length (advance st)

theorem advanceWhile_neg {f : Char → Char → Bool} {st : LexState}
    (hf : ¬(f (cur st) (nxt st) = true ∧ cur st ≠ NUL)) :
    advanceWhile f st = ([], st) := by
  show advanceWhileF f (st.rest.length + 1) st = ([], st)
  rw [advanceWhileF, if_neg hf]

theorem eatName_rest_suffix (st : LexState)
    (hstart : isIdStart (cur st) = true) :
    (eatName st).2.rest <:+ st.rest.tail := by
  have hne : cur st ≠ NUL := isIdStart_ne_NUL hstart
  have hb : (advanceWhile (fun c _ => isIdContinue c) st).2.rest <:+
      st.rest.tail :=
    advanceWhile_rest_suffix_strict (isIdStart_isIdContinue hstart) hne
  simp only [eatName]
  split
  · exact hb
  · exact hb

theorem eatName_good (st : LexState) : good (eatName st).2 = good st := by
  simp only [eatName]
  split
  · exact advanceWhile_good _ st
  · exact advanceWhile_good _ st

theorem eatNumber_good (st : LexState) : good (eatNumber st).2 = good st := by
  simp only [eatNumber]
  split
  · next hdot =>
    have h46 : cur (advanceWhile (fun c _ => decimal c) st).2 ≠ NUL := by
      rw [hdot.1]; decide
    split
    · next hi =>
      rw [good_advance_of_cur_ne_NUL (by rw [hi]; decide), advanceWhile_good,
        good_advance_of_cur_ne_NUL h46, advanceWhile_good]
    · rw [advanceWhile_good, good_advance_of_cur_ne_NUL h46, advanceWhile_good]
  · split
    · next hi =>
      rw [good_advance_of_cur_ne_NUL (by rw [hi]; decide), advanceWhile_good]
    · exact advanceWhile_good _ st

theorem eatNumber_rest_suffix (st : LexState)
    (hnum : decimal (cur st) = true ∨
      (cur st = Char.ofNat 46 ∧ decimal (nxt st) = true))
    (hne : cur st ≠ NUL) : (eatNumber st).2.rest <:+ st.rest.tail := by
  rcases hnum with hd | ⟨hdot, hnx⟩
  · have hb : (advanceWhile (fun c _ => decimal c) st).2.rest <:+
        st.rest.tail := advanceWhile_rest_suffix_strict hd hne
    simp only [eatNumber]
    split
    · split
      · exact (advance_rest_suffix _).trans
          (((advanceWhile_rest_suffix _ _).trans (advance_rest_suffix _)).trans hb)
      · exact ((advanceWhile_rest_suffix _ _).trans (advance_rest_suffix _)).trans hb
    · split
      · exact (advance_rest_suffix _).trans hb
      · exact hb
  · have hr1 : advanceWhile (fun c _ => decimal c) st = ([], st) := by
      refine advanceWhile_neg ?_
      intro hcon
      have : decimal (cur st) = true := hcon.1
      rw [hdot] at this
      exact absurd this (by decide)
    simp only [eatNumber, hr1]
    rw [if_pos ⟨hdot, hnx⟩]
    have hb : (advanceWhile (fun c _ => decimal c) (advance st)).2.rest <:+
        st.rest.tail := advanceWhile_rest_suffix _ (advance st)
    split
    · exact (advance_rest_suffix _).trans hb
    · exact hb

theorem advanceWith_rest (raw : RawToken) (st : LexState) :
    (advanceWith raw st).2.rest = st.rest.tail := rfl

theorem advanceWith_good (raw : RawToken) (st : LexState) (h : cur st ≠ NUL) :
    good (advanceWith raw st).2 = good st :=
  good_advance_of_cur_ne_NUL h

theorem advanceTwiceWith_rest_suffix (raw : RawToken) (st : LexState) :
    (advanceTwiceWith raw st).2.rest <:+ st.rest.tail :=
  advance_rest_suffix (advance st)

theorem advanceTwiceWith_good (raw : RawToken) (st : LexState)
    (h1 : cur st ≠ NUL) (h2 : nxt st ≠ NUL) :
    good (advanceTwiceWith raw st).2 = good st := by
  show good (advance (advance st)) = good st
  rw [good_advance_of_cur_ne_NUL (by rw [cur_advance]; exact h2),
    good_advance_of_cur_ne_NUL h1]

theorem eatString_raw_ne_eof (st0 : LexState) :
    (eatString st0).1.raw ≠ .EndOfFile := by
  unfold eatString
  split
  · simp
  · split
    · simp
    · simp

theorem eatCharLit_raw_ne_eof (st0 : LexState) :
    (eatCharLit st0).1.raw ≠ .EndOfFile := by
  unfold eatCharLit
  split
  · next ts heq =>
    cases ts with
    | mk t s =>
      obtain ⟨e, hraw⟩ := eatCharLoopF_err_raw heq
      show t.raw ≠ .EndOfFile
      rw [hraw]
      simp
  · split
    · simp
    · split
      · simp
      · simp

theorem eatWrappedId_raw_ne_eof (st0 : LexState) :
    (eatWrappedId st0).1.raw ≠ .EndOfFile := by
  simp only [eatWrappedId]
  split
  · simp
  · split
    · simp
    · simp

theorem eatSlashSlash_raw_ne_eof (st : LexState) :
    (eatSlashSlash st).1.raw ≠ .EndOfFile := by
  unfold eatSlashSlash
  split
  · simp only [eatDocComment]
    split <;> simp
  · split
    · simp only [eatDocComment]
      split <;> simp
    · simp only [eatComment]
      simp

theorem eatName_raw_ne_eof (st : LexState) :
    (eatName st).1.raw ≠ .EndOfFile := by
  simp only [eatName]
  split
  · simp
  · simp

theorem eatNumber_raw_ne_eof (st : LexState) :
    (eatNumber st).1.raw ≠ .EndOfFile := by
  simp only [eatNumber]
  split
  · split
    · simp
    · simp
  · split
    · simp
    · simp

theorem nextTokenD_rest_suffix (st : LexState) (h : cur st ≠ NUL) :
    (nextTokenD st).2.rest <:+ st.rest.tail := by
  unfold nextTokenD
  cases dispatch (cur st) (nxt st) with
  | punct1 p => exact List.suffix_refl _
  | punct2 p hn => exact advanceTwiceWith_rest_suffix _ st
  | strLit => exact eatString_rest_suffix st
  | charLit => exact eatCharLit_rest_suffix st
  | wrappedId => exact eatWrappedId_rest_suffix st
  | slashSlash hs => exact eatSlashSlash_rest_suffix st
  | number hn => exact eatNumber_rest_suffix st hn h
  | name hn => exact eatName_rest_suffix st hn
  | errTok => exact List.suffix_refl _

theorem nextTokenD_good (st : LexState) (h : cur st ≠ NUL) :
    good (nextTokenD st).2 = good st ∨
      ((nextTokenD st).1.raw = .Error .EmptyEscapeSequence ∧
        good (nextTokenD st).2 = good st + 1) := by
  unfold nextTokenD
  cases dispatch (cur st) (nxt st) with
  | punct1 p => exact Or.inl (advanceWith_good _ st h)
  | punct2 p hn => exact Or.inl (advanceTwiceWith_good _ st h hn)
  | strLit => exact eatString_good st h
  | charLit => exact eatCharLit_good st h
  | wrappedId => exact Or.inl (eatWrappedId_good st h)
  | slashSlash hs => exact Or.inl (eatSlashSlash_good st h hs)
  | number hn => exact Or.inl (eatNumber_good st)
  | name hn => exact Or.inl (eatName_good st)
  | errTok => exact Or.inl (advanceWith_good _ st h)

theorem nextTokenD_raw_ne_eof (st : LexState) :
    (nextTokenD st).1.raw ≠ .EndOfFile := by
  unfold nextTokenD
  cases dispatch (cur st) (nxt st) with
  | punct1 p => simp [advanceWith]
  | punct2 p hn => simp [advanceTwiceWith]
  | strLit => exact eatString_raw_ne_eof st
  | charLit => exact eatCharLit_raw_ne_eof st
  | wrappedId => exact eatWrappedId_raw_ne_eof st
  | slashSlash hs => exact eatSlashSlash_raw_ne_eof st
  | number hn => exact eatNumber_raw_ne_eof st
  | name hn => exact eatName_raw_ne_eof st
  | errTok => simp [advanceWith]

theorem nextToken_rest_suffix (st0 : LexState) :
    (nextToken st0).2.rest <:+ st0.rest := by
  unfold nextToken
  split
  · exact eatWhitespaces_rest_suffix st0
  · next h =>
    exact ((nextTokenD_rest_suffix _ h).trans (List.tail_suffix _)).trans
      (eatWhitespaces_rest_suffix st0)

theorem nextToken_progress (st0 : LexState) :
    (nextToken st0).1.raw = .EndOfFile ∨
      (nextToken st0).2.rest.length < st0.rest.length := by
  unfold nextToken
  split
  · exact Or.inl rfl
  · next h =>
    right
    have h1 := (nextTokenD_rest_suffix (eatWhitespaces st0) h).length_le
    have h2 := tail_length_lt_of_ne_nil (rest_ne_nil_of_cur_ne_NUL h)
    have h3 := (eatWhitespaces_rest_suffix st0).length_le
    omega

theorem nextToken_good (st0 : LexState) :
    good (nextToken st0).2 = good st0 ∨
      ((nextToken st0).1.raw = .Error .EmptyEscapeSequence ∧
        good (nextToken st0).2 = good st0 + 1) := by
  unfold nextToken
  split
  · exact Or.inl (eatWhitespaces_good st0)
  · next h =>
    rcases nextTokenD_good (eatWhitespaces st0) h with hg | ⟨hr, hg⟩
    · left
      rw [hg, eatWhitespaces_good]
    · right
      exact ⟨hr, by rw [hg, eatWhitespaces_good]⟩

theorem nextToken_eof_span (st0 : LexState)
    (h : (nextToken st0).1.raw = .EndOfFile) :
    (nextToken st0).1 = ⟨.EndOfFile, currentCharSpan (eatWhitespaces st0)⟩ ∧
      (nextToken st0).2 = eatWhitespaces st0 ∧
      cur (eatWhitespaces st0) = NUL := by
  unfold nextToken at *
  split at h
  · next hc =>
    rw [if_pos hc]
    exact ⟨rfl, rfl, hc⟩
  · exact absurd h (nextTokenD_raw_ne_eof _)

theorem nextToken_stable (st0 : LexState)
    (h : (nextToken st0).1.raw = .EndOfFile) :
    nextToken (nextToken st0).2 = nextToken st0 := by
  obtain ⟨htok, hst, hc⟩ := nextToken_eof_span st0 h
  rw [hst]
  have hws : eatWhitespaces (eatWhitespaces st0) = eatWhitespaces st0 :=
    eatWhitespaces_of_cur_NUL hc
  unfold nextToken
  rw [hws, if_pos hc]

theorem stateAt_rest_suffix (s : List Char) (n : Nat) :
    (stateAt s n).rest <:+ s := by
  induction n with
  | zero => exact List.suffix_refl _
  | succ n ih => exact (nextToken_rest_suffix (stateAt s n)).trans ih

theorem good_init (s : List Char) : good (initState s) = byteLen s := by
  simp [good, initState]

theorem eof_reached (s : List Char) :
    ∀ k n, (stateAt s n).rest.length ≤ k →
      ∃ m, (tokenAt s (n + m)).raw = .EndOfFile := by
  intro k
  induction k with
  | zero =>
    intro n h
    rcases nextToken_progress (stateAt s n) with he | hlt
    · exact ⟨0, by simpa [tokenAt] using he⟩
    · omega
  | succ k ih =>
    intro n h
    rcases nextToken_progress (stateAt s n) with he | hlt
    · exact ⟨0, by simpa [tokenAt] using he⟩
    · obtain ⟨m, hm⟩ := ih (n + 1) (by
        have h2 : (stateAt s (n + 1)).rest.length < (stateAt s n).rest.length :=
          hlt
        omega)
      exact ⟨m + 1, by rw [show n + (m + 1) = (n + 1) + m by omega]; exact hm⟩

theorem good_stateAt (s : List Char) (n : Nat)
    (hno : ∀ k, k < n → (tokenAt s k).raw ≠ .Error .EmptyEscapeSequence) :
    good (stateAt s n) = byteLen s := by
  induction n with
  | zero => exact good_init s
  | succ n ih =>
    have hstep := nextToken_good (stateAt s n)
    rcases hstep with hg | ⟨hr, _⟩
    · rw [show stateAt s (n + 1) = (nextToken (stateAt s n)).2 from rfl, hg]
      exact ih (fun k hk => hno k (by omega))
    · exact absurd hr (hno n (by omega))

theorem nextToken_stable_iter (s : List Char) (n : Nat)
    (h : (tokenAt s n).raw = .EndOfFile) :
    ∀ d, nextToken (stateAt s (n + d)) = nextToken (stateAt s n) := by
  intro d
  induction d with
  | zero => rfl
  | succ d ih =>
    have hstep : stateAt s (n + d + 1) = (nextToken (stateAt s n)).2 := by
      rw [show stateAt s (n + d + 1) = (nextToken (stateAt s (n + d))).2
        from rfl, ih]
    rw [show n + (d + 1) = n + d + 1 from rfl, hstep, nextToken_stable _ h]

end RyLexer

section ClaimC1

open RyLexer

/-- **C1 counterexample**: the claim's span equation fails as stated.
For the one-byte source `"\0"` (valid UTF-8), every call returns
`EndOfFile` at span `{0, 1}` — the scanner treats the embedded `'\0'` as
end of input — while the claim demands `{1, 2}`; the state is already a
fixpoint after the first call, so no later call can return anything else.
For the two-byte source `"\\` (a string literal ending in a backslash at
end of input), the `EmptyEscapeSequence` path advances the location past
the end of the input, and from the second call on every call returns
`EndOfFile` at the stable span `{3, 4}` instead of `{2, 3}`. -/
theorem c1_counterexample :
    (tokenAt [NUL] 0 = ⟨.EndOfFile, ⟨0, 1⟩⟩ ∧ byteLen [NUL] = 1 ∧
      (nextToken (initState [NUL])).2 = initState [NUL] ∧ (0 : Nat) ≠ 1) ∧
    (tokenAt [quoteC, bslash] 0 =
        ⟨.Error .EmptyEscapeSequence, ⟨2, 3⟩⟩ ∧
      tokenAt [quoteC, bslash] 1 = ⟨.EndOfFile, ⟨3, 4⟩⟩ ∧
      byteLen [quoteC, bslash] = 2 ∧
      (nextToken (stateAt [quoteC, bslash] 1)).2 = stateAt [quoteC, bslash] 1 ∧
      (3 : Nat) ≠ 2) := by
  constructor
  · exact ⟨by decide, by decide, by decide, by decide⟩
  · exact ⟨by decide, by decide, by decide, by decide, by decide⟩

/-- **C1** (amended): for every input without an embedded `'\0'`
character, repeatedly calling `Lexer::next_token` terminates: after
finitely many calls an `EndOfFile` token is returned and every subsequent
call returns that same token; moreover, unless scanning hit an empty
escape sequence at end of input (an `EmptyEscapeSequence` error token,
whose path advances the location once past the end), the `EndOfFile`
span is `{byte length, byte length + 1}` (so `{0, 1}` for the empty
input). -/
theorem c1_lexer_terminates_eof_stable (s : List Char) (hnul : NUL ∉ s) :
    ∃ n, (tokenAt s n).raw = .EndOfFile ∧
      (∀ m, n ≤ m → tokenAt s m = tokenAt s n) ∧
      ((∀ k, k < n → (tokenAt s k).raw ≠ .Error .EmptyEscapeSequence) →
        tokenAt s n = ⟨.EndOfFile, ⟨byteLen s, byteLen s + 1⟩⟩) := by
  obtain ⟨n, hn⟩ := eof_reached s (stateAt s 0).rest.length 0 le_rfl
  rw [Nat.zero_add] at hn
  refine ⟨n, hn, ?_, ?_⟩
  · intro m hm
    obtain ⟨d, rfl⟩ := Nat.le.dest hm
    show (nextToken (stateAt s (n + d))).1 = (nextToken (stateAt s n)).1
    rw [nextToken_stable_iter s n hn d]
  · intro hno
    have hg : good (stateAt s n) = byteLen s := good_stateAt s n hno
    obtain ⟨htok, _, hcur⟩ := nextToken_eof_span (stateAt s n) hn
    have hsuf : (eatWhitespaces (stateAt s n)).rest <:+ s :=
      (eatWhitespaces_rest_suffix _).trans (stateAt_rest_suffix s n)
    have hnil : (eatWhitespaces (stateAt s n)).rest = [] := by
      cases hr : (eatWhitespaces (stateAt s n)).rest with
      | nil => rfl
      | cons c t =>
        have hcNUL : c = NUL := by
          have h2 := hcur
          rw [show cur (eatWhitespaces (stateAt s n))
              = (eatWhitespaces (stateAt s n)).rest.headD NUL from rfl,
            hr] at h2
          simpa using h2
        exact absurd (hsuf.subset (by rw [hr, hcNUL]; exact List.mem_cons_self _ _))
          hnul
    have hloc : (eatWhitespaces (stateAt s n)).loc = byteLen s := by
      have hgw := eatWhitespaces_good (stateAt s n)
      rw [hg] at hgw
      unfold good at hgw
      rw [hnil] at hgw
      simpa [byteLen] using hgw
    show (nextToken (stateAt s n)).1 = _
    rw [htok]
    unfold currentCharSpan
    rw [hloc]

/-- Witness for the amended C1 at the concrete input `"a"`. -/
theorem c1_witness :
    ∃ n, (tokenAt ['a'] n).raw = .EndOfFile ∧
      (∀ m, n ≤ m → tokenAt ['a'] m = tokenAt ['a'] n) ∧
      ((∀ k, k < n → (tokenAt ['a'] k).raw ≠ .Error .EmptyEscapeSequence) →
        tokenAt ['a'] n = ⟨.EndOfFile, ⟨byteLen ['a'], byteLen ['a'] + 1⟩⟩) :=
  c1_lexer_terminates_eof_stable ['a'] (by decide)

end ClaimC1

section ClaimsC5C6C7

open RyLexer

/-- **C5**: scanning `"abc` (opening quote, closing quote never appears)
yields exactly one error token, of the unterminated-string-literal kind,
spanning from the opening quote (offset 0) to end of file (offset 4 = the
byte length); every call after it returns `EndOfFile` at `{4, 5}` — the
scanner does not loop.  The same error kind is produced when a newline is
reached before the closing quote (source `"a\nb"`): the string literal
never spans the newline. -/
theorem c5_unterminated_string :
    tokenAt [quoteC, 'a', 'b', 'c'] 0
      = ⟨.Error .UnterminatedStringLiteral, ⟨0, 4⟩⟩ ∧
    (∀ n, tokenAt [quoteC, 'a', 'b', 'c'] (n + 1) = ⟨.EndOfFile, ⟨4, 5⟩⟩) ∧
    tokenAt [quoteC, 'a', lf, 'b', quoteC] 0
      = ⟨.Error .UnterminatedStringLiteral, ⟨0, 2⟩⟩ := by
  refine ⟨by decide, ?_, by decide⟩
  intro n
  have h1 : tokenAt [quoteC, 'a', 'b', 'c'] 1 = ⟨.EndOfFile, ⟨4, 5⟩⟩ := by
    decide
  have h2 := nextToken_stable_iter [quoteC, 'a', 'b', 'c'] 1
    (by rw [h1]) n
  show (nextToken (stateAt [quoteC, 'a', 'b', 'c'] (n + 1))).1 = _
  rw [show n + 1 = 1 + n by omega, h2]
  exact h1

/-- **C6** (divergence at `%=`): the `('%', '=')` arm of
`Lexer::next_token` uses `advance_with`, not `advance_twice_with`, so
scanning `%=` produces a `%=` token spanning only the first character
(`{0, 1}`) and leaves the `=` to be scanned again as its own token —
unlike every other two-character punctuator arm, which consumes both
characters with span `{start, start + 2}` (shown here for `+=`, `**`,
`==`). -/
theorem c6_percent_eq_divergence :
    tokenAt ['%', '='] 0 = ⟨.Punct "%=", ⟨0, 1⟩⟩ ∧
    tokenAt ['%', '='] 1 = ⟨.Punct "=", ⟨1, 2⟩⟩ ∧
    tokenAt ['%', '='] 2 = ⟨.EndOfFile, ⟨2, 3⟩⟩ ∧
    tokenAt ['+', '='] 0 = ⟨.Punct "+=", ⟨0, 2⟩⟩ ∧
    tokenAt ['+', '='] 1 = ⟨.EndOfFile, ⟨2, 3⟩⟩ ∧
    tokenAt ['*', '*'] 0 = ⟨.Punct "**", ⟨0, 2⟩⟩ ∧
    tokenAt ['=', '='] 0 = ⟨.Punct "==", ⟨0, 2⟩⟩ ∧
    tokenAt ['+', '+'] 0 = ⟨.Punct "++", ⟨0, 2⟩⟩ := by
  refine ⟨by decide, by decide, by decide, by decide, by decide, by decide,
    by decide, by decide⟩

/-- **C7**: scanning the string literal `"\x{}"` (empty hex body in a
byte escape) produces an error token of the
expected-digit-in-byte-escape-sequence kind whose span `{4, 5}` is the
single character position immediately after the `{` (which sits at
offset 3). -/
theorem c7_empty_byte_escape :
    tokenAt [quoteC, bslash, 'x', lbraceC, rbraceC, quoteC] 0
      = ⟨.Error .ExpectedDigitInByteEscapeSequence, ⟨4, 5⟩⟩ := by decide

end ClaimsC5C6C7

section ClaimC9

open RyLexer

theorem internIdx_append_of_mem {s : String} {l₁ : List String}
    (l₂ : List String) (h : s ∈ l₁) :
    internIdx s (l₁ ++ l₂) = internIdx s l₁ := by
  induction l₁ with
  | nil => cases h
  | cons t rest ih =>
    by_cases ht : t = s
    · simp [internIdx, ht]
    · have hs : s ∈ rest := by
        rcases List.mem_cons.mp h with h1 | h1
        · exact absurd h1.symm ht
        · exact h1
      simp [internIdx, ht, ih hs]

theorem internIdx_eq_length_of_not_mem {s : String} {l : List String}
    (h : s ∉ l) : internIdx s l = l.length := by
  induction l with
  | nil => rfl
  | cons t rest ih =>
    have ht : t ≠ s := fun he => h (List.mem_cons.mpr (Or.inl he.symm))
    simp [internIdx, ht, ih (fun hm => h (List.mem_cons.mpr (Or.inr hm)))]

theorem internIdx_append_not_mem {s : String} {l : List String}
    (h : s ∉ l) : internIdx s (l ++ [s]) = l.length := by
  induction l with
  | nil => simp [internIdx]
  | cons t rest ih =>
    have ht : t ≠ s := fun he => h (List.mem_cons.mpr (Or.inl he.symm))
    simp [internIdx, ht, ih (fun hm => h (List.mem_cons.mpr (Or.inr hm)))]

theorem internIdx_lt_length_of_mem {s : String} {l : List String}
    (h : s ∈ l) : internIdx s l < l.length := by
  induction l with
  | nil => cases h
  | cons t rest ih =>
    by_cases ht : t = s
    · simp [internIdx, ht]
    · have hs : s ∈ rest := by
        rcases List.mem_cons.mp h with h1 | h1
        · exact absurd h1.symm ht
        · exact h1
      simp only [internIdx, if_neg ht, List.length_cons]
      exact Nat.succ_lt_succ (ih hs)

theorem internIdx_inj {s t : String} {l : List String} (hs : s ∈ l)
    (ht : t ∈ l) (he : internIdx s l = internIdx t l) : s = t := by
  induction l with
  | nil => cases hs
  | cons a rest ih =>
    by_cases has : a = s <;> by_cases hat : a = t
    · exact has.symm.trans hat
    · have hne : s ≠ t := fun h2 => hat (has.trans h2)
      simp [internIdx, has, hat, hne] at he
    · have hne : t ≠ s := fun h2 => has (hat.trans h2)
      simp [internIdx, has, hat, hne] at he
    · have hs2 : s ∈ rest := by
        rcases List.mem_cons.mp hs with h1 | h1
        · exact absurd h1.symm has
        · exact h1
      have ht2 : t ∈ rest := by
        rcases List.mem_cons.mp ht with h1 | h1
        · exact absurd h1.symm hat
        · exact h1
      refine ih hs2 ht2 ?_
      simpa [internIdx, has, hat] using he

theorem getOrIntern_mem (i : List String) (s : String) :
    s ∈ (getOrIntern i s).2 := by
  unfold getOrIntern
  split
  · assumption
  · simp

theorem getOrIntern_extends (i : List String) (t : String) :
    i <+: (getOrIntern i t).2 := by
  unfold getOrIntern
  split
  · exact List.prefix_refl _
  · exact List.prefix_append _ _

theorem applyInterns_prefix (ops : List String) (i : List String) :
    i <+: applyInterns ops i := by
  induction ops generalizing i with
  | nil => exact List.prefix_refl _
  | cons o ops ih =>
    exact (getOrIntern_extends i o).trans (ih (getOrIntern i o).2)

theorem internIdx_of_extends {i j : List String} {s : String} (h : i <+: j)
    (hm : s ∈ i) : internIdx s j = internIdx s i := by
  obtain ⟨r, rfl⟩ := h
  exact internIdx_append_of_mem r hm

theorem getOrIntern_fst_eq {i : List String} {s : String} :
    internIdx s (getOrIntern i s).2 = (getOrIntern i s).1 := by
  unfold getOrIntern
  by_cases hm : s ∈ i
  · rw [if_pos hm]
  · rw [if_neg hm]
    show internIdx s (i ++ [s]) = internIdx s i
    rw [internIdx_append_not_mem hm, internIdx_eq_length_of_not_mem hm]

/-- **C9**: interning is idempotent and injective.  For every interner
state `i`, text `s`, and arbitrary interleaved interning operations
`ops`: interning `s` again after the interleaved operations returns the
same symbol as the first interning of `s`; and interning a different
text `t` returns a different symbol. -/
theorem c9_interning_idempotent_injective (i : List String) (s t : String)
    (ops : List String) (hst : s ≠ t) :
    (getOrIntern (applyInterns ops (getOrIntern i s).2) s).1
      = (getOrIntern i s).1 ∧
    (getOrIntern (applyInterns ops (getOrIntern i s).2) t).1
      ≠ (getOrIntern i s).1 := by
  have hmem1 : s ∈ (getOrIntern i s).2 := getOrIntern_mem i s
  have hpre : (getOrIntern i s).2 <+: applyInterns ops (getOrIntern i s).2 :=
    applyInterns_prefix ops _
  have hmemj : s ∈ applyInterns ops (getOrIntern i s).2 := hpre.subset hmem1
  have hidx : internIdx s (applyInterns ops (getOrIntern i s).2)
      = (getOrIntern i s).1 := by
    rw [internIdx_of_extends hpre hmem1, getOrIntern_fst_eq]
  constructor
  · exact hidx
  · show internIdx t (applyInterns ops (getOrIntern i s).2) ≠ _
    rw [← hidx]
    by_cases hmt : t ∈ applyInterns ops (getOrIntern i s).2
    · intro he
      exact hst (internIdx_inj hmemj hmt he.symm)
    · intro he
      rw [internIdx_eq_length_of_not_mem hmt] at he
      have := internIdx_lt_length_of_mem hmemj
      omega

/-- Witness for C9 at `i = []`, `s = "a"`, `t = "b"`, `ops = ["c"]`. -/
theorem c9_witness :
    (getOrIntern (applyInterns ["c"] (getOrIntern [] "a").2) "a").1
      = (getOrIntern [] "a").1 ∧
    (getOrIntern (applyInterns ["c"] (getOrIntern [] "a").2) "b").1
      ≠ (getOrIntern [] "a").1 :=
  c9_interning_idempotent_injective [] "a" "b" ["c"] (by decide)

end ClaimC9

section ClaimC2

open RyExpr

theorem binOp_prec_pos {o : ERaw} (h : isBinOp o = true) :
    1 ≤ toPrecedence o := by
  cases o <;> first | decide | simp [isBinOp] at h

/-- **C2**: precedence climbing on `a OP1 b OP2 c` (tokens at byte offsets
`0..6`).  If `OP2` binds strictly tighter than `OP1`, the parse is
`Binary(a, OP1, Binary(b, OP2, c))`; if strictly looser, it is
`Binary(Binary(a, OP1, b), OP2, c)`.  The spans carry the source quirk
that a binary node's `end` is read from the first token after the right
operand.  Instantiated at `1 + 2 * 3` (the witness), this is the spec's
`1 + (2 * 3)` example. -/
theorem c2_precedence_climbing (a b c : Nat) (o1 o2 : ERaw)
    (h1 : isBinOp o1 = true) (h2 : isBinOp o2 = true) :
    (toPrecedence o1 < toPrecedence o2 →
      parseExpression 8 lowestPrec
        ⟨⟨.int a, ⟨0, 1⟩⟩,
         [⟨o1, ⟨1, 2⟩⟩, ⟨.int b, ⟨2, 3⟩⟩, ⟨o2, ⟨3, 4⟩⟩, ⟨.int c, ⟨4, 5⟩⟩,
          ⟨.endOfFile, ⟨5, 6⟩⟩]⟩ =
      .ok (.binary (.int a ⟨0, 1⟩) ⟨o1, ⟨1, 2⟩⟩
             (.binary (.int b ⟨2, 3⟩) ⟨o2, ⟨3, 4⟩⟩ (.int c ⟨4, 5⟩) ⟨2, 6⟩)
             ⟨0, 6⟩,
           ⟨⟨.endOfFile, ⟨5, 6⟩⟩, []⟩)) ∧
    (toPrecedence o2 < toPrecedence o1 →
      parseExpression 8 lowestPrec
        ⟨⟨.int a, ⟨0, 1⟩⟩,
         [⟨o1, ⟨1, 2⟩⟩, ⟨.int b, ⟨2, 3⟩⟩, ⟨o2, ⟨3, 4⟩⟩, ⟨.int c, ⟨4, 5⟩⟩,
          ⟨.endOfFile, ⟨5, 6⟩⟩]⟩ =
      .ok (.binary
             (.binary (.int a ⟨0, 1⟩) ⟨o1, ⟨1, 2⟩⟩ (.int b ⟨2, 3⟩) ⟨0, 4⟩)
             ⟨o2, ⟨3, 4⟩⟩ (.int c ⟨4, 5⟩) ⟨0, 6⟩,
           ⟨⟨.endOfFile, ⟨5, 6⟩⟩, []⟩)) := by
  have hb1 := binOp_prec_pos h1
  have hb2 := binOp_prec_pos h2
  have heof : toPrecedence ERaw.endOfFile = (0 : Int) := rfl
  have h01 : lowestPrec < toPrecedence o1 := by
    unfold lowestPrec; omega
  have h02 : lowestPrec < toPrecedence o2 := by
    unfold lowestPrec; omega
  have hn1 : ¬ toPrecedence o1 < (0 : Int) := by omega
  have hn2 : ¬ toPrecedence o2 < (0 : Int) := by omega
  have h00 : ¬ lowestPrec < (0 : Int) := by decide
  constructor
  · intro hlt
    simp [parseExpression, parsePrefixExpr, parseExprLoop, eadvance,
      Expr.spanOf, h01, h1, h2, hlt, heof, hn1, hn2, h00]
  · intro hgt
    have hngt : ¬ toPrecedence o1 < toPrecedence o2 := by omega
    simp [parseExpression, parsePrefixExpr, parseExprLoop, eadvance,
      Expr.spanOf, h01, h02, h1, h2, hngt, heof, hn1, hn2, h00]

/-- Witness for C2 at `1 + 2 * 3`: `*` binds tighter than `+`, so the
parse is `1 + (2 * 3)`. -/
theorem c2_witness :
    RyExpr.parseExpression 8 RyExpr.lowestPrec
      ⟨⟨.int 1, ⟨0, 1⟩⟩,
       [⟨.plus, ⟨1, 2⟩⟩, ⟨.int 2, ⟨2, 3⟩⟩, ⟨.star, ⟨3, 4⟩⟩, ⟨.int 3, ⟨4, 5⟩⟩,
        ⟨.endOfFile, ⟨5, 6⟩⟩]⟩ =
    .ok (.binary (.int 1 ⟨0, 1⟩) ⟨.plus, ⟨1, 2⟩⟩
           (.binary (.int 2 ⟨2, 3⟩) ⟨.star, ⟨3, 4⟩⟩ (.int 3 ⟨4, 5⟩) ⟨2, 6⟩)
           ⟨0, 6⟩,
         ⟨⟨.endOfFile, ⟨5, 6⟩⟩, []⟩) :=
  (c2_precedence_climbing 1 2 3 .plus .star (by decide) (by decide)).1
    (by decide)

end ClaimC2

section ClaimC3

open RyTypeP

/-- **C3**: the five classifications of the leading-`(` type parser, end
to end on concrete token streams over their ASCII sources (identifier
symbols and spans as the scanner would produce them): `(A)` is a
`Parenthesized` type; `(A,)` (one element, trailing comma in the source
text) is a one-element `Tuple`; `(A, B)` is a two-element `Tuple`; `()`
is an empty `Tuple`; `(A): B` is a `Function` type with one parameter
type and return type `B`.  No diagnostics are recorded on any of the
five. -/
theorem c3_paren_tuple_function_dispatch :
    (typeParser 20
      ⟨⟨.lparen, ⟨0, 1⟩⟩,
       [⟨.ident 0, ⟨1, 2⟩⟩, ⟨.rparen, ⟨2, 3⟩⟩, ⟨.endOfFile, ⟨3, 4⟩⟩],
       0, ['(', 'A', ')'], []⟩ =
      (some (.parenthesized ⟨0, 3⟩ (identPathType ⟨1, 2⟩ 0)),
       ⟨⟨.endOfFile, ⟨3, 4⟩⟩, [], 3, ['(', 'A', ')'], []⟩)) ∧
    (typeParser 20
      ⟨⟨.lparen, ⟨0, 1⟩⟩,
       [⟨.ident 0, ⟨1, 2⟩⟩, ⟨.comma, ⟨2, 3⟩⟩, ⟨.rparen, ⟨3, 4⟩⟩,
        ⟨.endOfFile, ⟨4, 5⟩⟩],
       0, ['(', 'A', ',', ')'], []⟩ =
      (some (.tuple ⟨0, 4⟩ [identPathType ⟨1, 2⟩ 0]),
       ⟨⟨.endOfFile, ⟨4, 5⟩⟩, [], 4, ['(', 'A', ',', ')'], []⟩)) ∧
    (typeParser 20
      ⟨⟨.lparen, ⟨0, 1⟩⟩,
       [⟨.ident 0, ⟨1, 2⟩⟩, ⟨.comma, ⟨2, 3⟩⟩, ⟨.ident 1, ⟨4, 5⟩⟩,
        ⟨.rparen, ⟨5, 6⟩⟩, ⟨.endOfFile, ⟨6, 7⟩⟩],
       0, ['(', 'A', ',', ' ', 'B', ')'], []⟩ =
      (some (.tuple ⟨0, 6⟩ [identPathType ⟨1, 2⟩ 0, identPathType ⟨4, 5⟩ 1]),
       ⟨⟨.endOfFile, ⟨6, 7⟩⟩, [], 6, ['(', 'A', ',', ' ', 'B', ')'], []⟩)) ∧
    (typeParser 20
      ⟨⟨.lparen, ⟨0, 1⟩⟩,
       [⟨.rparen, ⟨1, 2⟩⟩, ⟨.endOfFile, ⟨2, 3⟩⟩],
       0, ['(', ')'], []⟩ =
      (some (.tuple ⟨0, 2⟩ []),
       ⟨⟨.endOfFile, ⟨2, 3⟩⟩, [], 2, ['(', ')'], []⟩)) ∧
    (typeParser 20
      ⟨⟨.lparen, ⟨0, 1⟩⟩,
       [⟨.ident 0, ⟨1, 2⟩⟩, ⟨.rparen, ⟨2, 3⟩⟩, ⟨.colon, ⟨3, 4⟩⟩,
        ⟨.ident 1, ⟨5, 6⟩⟩, ⟨.endOfFile, ⟨6, 7⟩⟩],
       0, ['(', 'A', ')', ':', ' ', 'B'], []⟩ =
      (some (.function ⟨0, 6⟩ [identPathType ⟨1, 2⟩ 0]
          (identPathType ⟨5, 6⟩ 1)),
       ⟨⟨.endOfFile, ⟨6, 7⟩⟩, [], 6, ['(', 'A', ')', ':', ' ', 'B'], []⟩)) :=
  ⟨rfl, rfl, rfl, rfl, rfl⟩

end ClaimC3

section ClaimC4

open RyItems

/-- **C4** (amended): `ItemParser::parse_with` does record the
"expected one of" diagnostic and skip exactly the offending token, but
`ItemsParser::parse_with` propagates the item error with `?`, so parsing
aborts: for every sub-parser bundle, whenever the token at the cursor is
not `pub`, one of the six item keywords, or end of file, the items
parser returns exactly the `unexpected_token` error (with the
`expected!` set `{import, fun, trait, enum, struct}` and node `"item"`)
and the state one token further — no item list is produced. -/
theorem c4_item_error_aborts_items {α : Type} (subs : SubParsers α)
    (st : IState) (docs : List String)
    (h : st.next.inner ∉ ([.kwPub, .kwEnum, .kwImport, .kwStruct, .kwTrait,
      .kwFun, .kwImpl, .endOfFile] : List IRaw)) :
    itemsParser subs docs st =
      (.error (.unexpectedToken st.next itemExpectedSet "item"), iadvance st) := by
  have heof : st.next.inner ≠ .endOfFile := fun he => h (by simp [he])
  have hi : itemParser subs st =
      (.error (.unexpectedToken st.next itemExpectedSet "item"), iadvance st) := by
    cases hv : st.next.inner <;> simp_all [itemParser]
  unfold itemsParser
  show itemsParserLoop subs docs [] (st.rest.length + 1 + 1) st =
    (.error (.unexpectedToken st.next itemExpectedSet "item"), iadvance st)
  rw [itemsParserLoop, if_neg heof, hi]

/-- Witness for C4's amended theorem: a lone `,` where an item is
expected. -/
theorem c4_witness :
    itemsParser demoSubs [] (mkIState [⟨.comma, ⟨0, 1⟩⟩, ⟨.endOfFile, ⟨1, 2⟩⟩]) =
      (.error (.unexpectedToken ⟨.comma, ⟨0, 1⟩⟩ itemExpectedSet "item"),
       ⟨⟨.comma, ⟨0, 1⟩⟩, ⟨.endOfFile, ⟨1, 2⟩⟩, []⟩) :=
  c4_item_error_aborts_items demoSubs
    (mkIState [⟨.comma, ⟨0, 1⟩⟩, ⟨.endOfFile, ⟨1, 2⟩⟩]) [] (by decide)

/-- **C4 counterexample**: the minimal function item `fun f() { }` alone
parses to a one-item module, but with a junk `,` token in front,
`ItemsParser::parse_with` returns an error — the items collected so far
are discarded and the well-formed item after the offending token is NOT
present in any returned item list, refuting "always returns a Module
plus a list of diagnostics" and "well-formed items appearing after the
offending token are still present". -/
theorem c4_counterexample :
    itemsParser demoSubs [] (mkIState
      [⟨.kwFun, ⟨0, 3⟩⟩, ⟨.ident "f", ⟨4, 5⟩⟩, ⟨.punct "(", ⟨5, 6⟩⟩,
       ⟨.punct ")", ⟨6, 7⟩⟩, ⟨.punct "\x7b", ⟨8, 9⟩⟩, ⟨.punct "\x7d", ⟨9, 10⟩⟩,
       ⟨.endOfFile, ⟨10, 11⟩⟩]) =
      (.ok [⟨(), []⟩],
       ⟨⟨.punct "\x7d", ⟨9, 10⟩⟩, ⟨.endOfFile, ⟨10, 11⟩⟩, []⟩) ∧
    itemsParser demoSubs [] (mkIState
      [⟨.comma, ⟨0, 1⟩⟩, ⟨.kwFun, ⟨0, 3⟩⟩, ⟨.ident "f", ⟨4, 5⟩⟩,
       ⟨.punct "(", ⟨5, 6⟩⟩, ⟨.punct ")", ⟨6, 7⟩⟩, ⟨.punct "\x7b", ⟨8, 9⟩⟩,
       ⟨.punct "\x7d", ⟨9, 10⟩⟩, ⟨.endOfFile, ⟨10, 11⟩⟩]) =
      (.error (.unexpectedToken ⟨.comma, ⟨0, 1⟩⟩ itemExpectedSet "item"),
       ⟨⟨.comma, ⟨0, 1⟩⟩, ⟨.kwFun, ⟨0, 3⟩⟩,
        [⟨.ident "f", ⟨4, 5⟩⟩, ⟨.punct "(", ⟨5, 6⟩⟩, ⟨.punct ")", ⟨6, 7⟩⟩,
         ⟨.punct "\x7b", ⟨8, 9⟩⟩, ⟨.punct "\x7d", ⟨9, 10⟩⟩,
         ⟨.endOfFile, ⟨10, 11⟩⟩]⟩) ∧
    (itemsParser demoSubs [] (mkIState
      [⟨.comma, ⟨0, 1⟩⟩, ⟨.kwFun, ⟨0, 3⟩⟩, ⟨.ident "f", ⟨4, 5⟩⟩,
       ⟨.punct "(", ⟨5, 6⟩⟩, ⟨.punct ")", ⟨6, 7⟩⟩, ⟨.punct "\x7b", ⟨8, 9⟩⟩,
       ⟨.punct "\x7d", ⟨9, 10⟩⟩, ⟨.endOfFile, ⟨10, 11⟩⟩])).1.toOption =
      none :=
  ⟨rfl, rfl, rfl⟩

end ClaimC4

section ClaimC8

open RyItems

/-- **C8**: a trailing comma before `]` does not change the parsed
elements: the token streams of `[1, 2, 3,]` and `[1, 2, 3]` parse to
array-literal expressions with identical element sequences (only the
node spans differ, by the position of `]`). -/
theorem c8_trailing_comma_same_elements :
    (arrayLiteralParser 20 (mkIState
      [⟨.lbracket, ⟨0, 1⟩⟩, ⟨.int 1, ⟨1, 2⟩⟩, ⟨.comma, ⟨2, 3⟩⟩,
       ⟨.int 2, ⟨3, 4⟩⟩, ⟨.comma, ⟨4, 5⟩⟩, ⟨.int 3, ⟨5, 6⟩⟩,
       ⟨.comma, ⟨6, 7⟩⟩, ⟨.rbracket, ⟨7, 8⟩⟩, ⟨.endOfFile, ⟨8, 9⟩⟩]) =
      (.ok (.array [.intLit 1 ⟨1, 2⟩, .intLit 2 ⟨3, 4⟩, .intLit 3 ⟨5, 6⟩]
         ⟨1, 8⟩),
       ⟨⟨.rbracket, ⟨7, 8⟩⟩, ⟨.endOfFile, ⟨8, 9⟩⟩, []⟩)) ∧
    (arrayLiteralParser 20 (mkIState
      [⟨.lbracket, ⟨0, 1⟩⟩, ⟨.int 1, ⟨1, 2⟩⟩, ⟨.comma, ⟨2, 3⟩⟩,
       ⟨.int 2, ⟨3, 4⟩⟩, ⟨.comma, ⟨4, 5⟩⟩, ⟨.int 3, ⟨5, 6⟩⟩,
       ⟨.rbracket, ⟨6, 7⟩⟩, ⟨.endOfFile, ⟨7, 8⟩⟩]) =
      (.ok (.array [.intLit 1 ⟨1, 2⟩, .intLit 2 ⟨3, 4⟩, .intLit 3 ⟨5, 6⟩]
         ⟨1, 7⟩),
       ⟨⟨.rbracket, ⟨6, 7⟩⟩, ⟨.endOfFile, ⟨7, 8⟩⟩, []⟩)) ∧
    ((arrayLiteralParser 20 (mkIState
      [⟨.lbracket, ⟨0, 1⟩⟩, ⟨.int 1, ⟨1, 2⟩⟩, ⟨.comma, ⟨2, 3⟩⟩,
       ⟨.int 2, ⟨3, 4⟩⟩, ⟨.comma, ⟨4, 5⟩⟩, ⟨.int 3, ⟨5, 6⟩⟩,
       ⟨.comma, ⟨6, 7⟩⟩, ⟨.rbracket, ⟨7, 8⟩⟩,
       ⟨.endOfFile, ⟨8, 9⟩⟩])).1.toOption.map ArrExpr.elementsOf =
     (arrayLiteralParser 20 (mkIState
      [⟨.lbracket, ⟨0, 1⟩⟩, ⟨.int 1, ⟨1, 2⟩⟩, ⟨.comma, ⟨2, 3⟩⟩,
       ⟨.int 2, ⟨3, 4⟩⟩, ⟨.comma, ⟨4, 5⟩⟩, ⟨.int 3, ⟨5, 6⟩⟩,
       ⟨.rbracket, ⟨6, 7⟩⟩,
       ⟨.endOfFile, ⟨7, 8⟩⟩])).1.toOption.map ArrExpr.elementsOf) :=
  ⟨rfl, rfl, rfl⟩

end ClaimC8

namespace RyLexer

/-!
Location-monotonicity and span-validity lemmas for C10: every advance
adds at least one byte to `loc`, every sub-scanner is monotone in `loc`,
and every produced span satisfies `start + 1 ≤ stop`.
-/

theorem loc_advance (st : LexState) : st.loc + 1 ≤ (advance st).loc := by
  show st.loc + 1 ≤ st.loc + (cur st).utf8Size
  have := Char.utf8Size_pos (cur st)
  omega

theorem loc_le_advance (st : LexState) : st.loc ≤ (advance st).loc :=
  le_trans (Nat.le_succ st.loc) (loc_advance st)

theorem advanceWhileF_loc (f : Char → Char → Bool) (fuel : Nat)
    (st : LexState) : st.loc ≤ (advanceWhileF f fuel st).2.loc := by
  induction fuel generalizing st with
  | zero => exact le_refl _
  | succ n ih =>
    rw [advanceWhileF]
    split
    · exact (loc_le_advance st).trans (ih (advance st))
    · exact le_refl _

theorem advanceWhile_loc (f : Char → Char → Bool) (st : LexState) :
    st.loc ≤ (advanceWhile f st).2.loc :=
  advanceWhileF_loc f _ st

theorem advanceWhile_loc_strict {f : Char → Char → Bool} {st : LexState}
    (hf : f (cur st) (nxt st) = true) (hne : cur st ≠ NUL) :
    st.loc + 1 ≤ (advanceWhile f st).2.loc := by
  rw [advanceWhile_pos_snd hf hne]
  exact (loc_advance st).trans (advanceWhileF_loc f st.rest.length (advance st))

theorem eatHexDigits_loc (k : RawLexError) (n : Nat) (st : LexState) :
    st.loc ≤ (eatHexDigits k n st).2.loc := by
  induction n generalizing st with
  | zero => exact le_refl _
  | succ m ih =>
    rw [eatHexDigits]
    split
    · split
      · next buf st2 heq =>
        have h1 := ih (advance st)
        rw [heq] at h1
        exact (loc_le_advance st).trans h1
      · next e st2 heq =>
        have h1 := ih (advance st)
        rw [heq] at h1
        exact (loc_le_advance st).trans h1
    · exact le_refl _

theorem eatHexDigits_err_span (k : RawLexError) (n : Nat) (st : LexState)
    {e : LexError} (h : (eatHexDigits k n st).1 = .error e) :
    e.span.start + 1 ≤ e.span.stop := by
  induction n generalizing st with
  | zero => simp [eatHexDigits] at h
  | succ m ih =>
    rw [eatHexDigits] at h
    split at h
    · split at h
      · simp at h
      · next e2 st2 heq =>
        simp only at h
        have h2 : (eatHexDigits k m (advance st)).1 = .error e2 := by
          rw [heq]
        rw [show e2 = e by exact Except.error.inj h] at h2
        exact ih (advance st) h2
    · simp only at h
      rw [← Except.error.inj h]
      show st.loc + 1 ≤ st.loc + 1
      exact le_refl _

theorem eatBracketedHex_loc (o d c : RawLexError) (n : Nat) (st : LexState) :
    st.loc ≤ (eatBracketedHex o d c n st).2.loc := by
  unfold eatBracketedHex
  split
  · exact loc_le_advance st
  · split
    · next e st2 heq =>
      have h1 := eatHexDigits_loc d n (advance (advance st))
      rw [heq] at h1
      exact ((loc_le_advance st).trans (loc_le_advance (advance st))).trans h1
    · next buf st3 heq =>
      have h1 := eatHexDigits_loc d n (advance (advance st))
      rw [heq] at h1
      have h2 := ((loc_le_advance st).trans
        (loc_le_advance (advance st))).trans h1
      split
      · exact h2
      · exact h2

theorem eatBracketedHex_err_span {o d c : RawLexError} {n : Nat}
    {st : LexState} {e : LexError}
    (h : (eatBracketedHex o d c n st).1 = .error e) :
    e.span.start + 1 ≤ e.span.stop := by
  unfold eatBracketedHex at h
  split at h
  · simp only at h
    rw [← Except.error.inj h]
    show (advance st).loc + 1 ≤ (advance st).loc + 1
    exact le_refl _
  · split at h
    · next e2 st2 heq =>
      simp only at h
      have h2 : (eatHexDigits d n (advance (advance st))).1 = .error e2 := by
        rw [heq]
      rw [show e2 = e by exact Except.error.inj h] at h2
      exact eatHexDigits_err_span d n (advance (advance st)) h2
    · next buf st3 heq =>
      split at h
      · simp only at h
        rw [← Except.error.inj h]
        show st3.loc + 1 ≤ st3.loc + 1
        exact le_refl _
      · simp at h

theorem eatBracketedHex_ok_loc {o d c : RawLexError} {n : Nat}
    {st st' : LexState} {buf : List Char}
    (h : eatBracketedHex o d c n st = (.ok buf, st')) :
    st.loc + 2 ≤ st'.loc := by
  unfold eatBracketedHex at h
  split at h
  · simp at h
  · split at h
    · simp at h
    · next buf2 st3 heq =>
      split at h
      · simp at h
      · have h3 := eatHexDigits_loc d n (advance (advance st))
        rw [heq] at h3
        have h4 : (advance (advance st)).loc ≤ st3.loc := h3
        have l1 := loc_advance st
        have l2 := loc_advance (advance st)
        have hst : st3 = st' := congrArg Prod.snd h
        rw [← hst]
        omega

theorem escapeArmFinish_loc (k : RawLexError) (sp : LexState → Span)
    (r : Except LexError (List Char) × LexState) :
    r.2.loc ≤ (escapeArmFinish k sp r).2.loc := by
  obtain ⟨fst, snd⟩ := r
  cases fst with
  | error e => exact le_refl _
  | ok buf =>
    show snd.loc ≤ (escapeArmFinish k sp (.ok buf, snd)).2.loc
    rw [show escapeArmFinish k sp (.ok buf, snd) =
        (match charFromNat (hexNat buf) with
         | some ch => (.ok ch, advance snd)
         | none => (.error ⟨k, sp snd⟩, advance snd)) from rfl]
    split
    · exact loc_le_advance snd
    · exact loc_le_advance snd

theorem escapeArmFinish_err_span {k : RawLexError} {sp : LexState → Span}
    {r : Except LexError (List Char) × LexState} {e : LexError}
    (hr : ∀ e', r.1 = .error e' → e'.span.start + 1 ≤ e'.span.stop)
    (hsp : ∀ st3 buf, r = (.ok buf, st3) →
      (sp st3).start + 1 ≤ (sp st3).stop)
    (h : (escapeArmFinish k sp r).1 = .error e) :
    e.span.start + 1 ≤ e.span.stop := by
  obtain ⟨fst, snd⟩ := r
  cases fst with
  | error e2 =>
    have h2 : e2 = e := Except.error.inj h
    rw [← h2]
    exact hr e2 rfl
  | ok buf =>
    rw [show escapeArmFinish k sp (.ok buf, snd) =
        (match charFromNat (hexNat buf) with
         | some ch => (.ok ch, advance snd)
         | none => (.error ⟨k, sp snd⟩, advance snd)) from rfl] at h
    split at h
    · simp at h
    · simp only at h
      rw [← Except.error.inj h]
      exact hsp snd buf rfl

theorem eatEscape_loc (st0 : LexState) : st0.loc ≤ (eatEscape st0).2.loc := by
  unfold eatEscape
  cases classifyEscape (cur (advance st0)) with
  | simple ch => exact (loc_le_advance st0).trans (loc_le_advance (advance st0))
  | empty => exact (loc_le_advance st0).trans (loc_le_advance (advance st0))
  | uni n =>
    have h1 := eatBracketedHex_loc .ExpectedOpenBracketInUnicodeEscapeSequence
      .ExpectedDigitInUnicodeEscapeSequence
      .ExpectedCloseBracketInUnicodeEscapeSequence n (advance st0)
    have h2 := escapeArmFinish_loc .InvalidUnicodeEscapeSequence
      currentCharSpan
      (eatBracketedHex .ExpectedOpenBracketInUnicodeEscapeSequence
        .ExpectedDigitInUnicodeEscapeSequence
        .ExpectedCloseBracketInUnicodeEscapeSequence n (advance st0))
    exact (loc_le_advance st0).trans (h1.trans h2)
  | byte =>
    have h1 := eatBracketedHex_loc .ExpectedOpenBracketInByteEscapeSequence
      .ExpectedDigitInByteEscapeSequence
      .ExpectedCloseBracketInByteEscapeSequence 2 (advance st0)
    have h2 := escapeArmFinish_loc .InvalidByteEscapeSequence
      (fun s => ⟨s.loc - 4, s.loc⟩)
      (eatBracketedHex .ExpectedOpenBracketInByteEscapeSequence
        .ExpectedDigitInByteEscapeSequence
        .ExpectedCloseBracketInByteEscapeSequence 2 (advance st0))
    exact (loc_le_advance st0).trans (h1.trans h2)
  | unknown => exact (loc_le_advance st0).trans (loc_le_advance (advance st0))

theorem eatEscape_err_span (st0 : LexState) {e : LexError}
    (h : (eatEscape st0).1 = .error e) :
    e.span.start + 1 ≤ e.span.stop := by
  unfold eatEscape at h
  cases hc : classifyEscape (cur (advance st0)) with
  | simple ch => rw [hc] at h; simp at h
  | empty =>
    rw [hc] at h
    simp only at h
    rw [← Except.error.inj h]
    show (advance st0).loc + 1 ≤ (advance st0).loc + 1
    exact le_refl _
  | uni n =>
    rw [hc] at h
    refine escapeArmFinish_err_span ?_ ?_ h
    · intro e' he'
      exact eatBracketedHex_err_span he'
    · intro st3 buf _
      show st3.loc + 1 ≤ st3.loc + 1
      exact le_refl _
  | byte =>
    rw [hc] at h
    refine escapeArmFinish_err_span ?_ ?_ h
    · intro e' he'
      exact eatBracketedHex_err_span he'
    · intro st3 buf hok
      have h1 := eatBracketedHex_ok_loc hok
      have h2 := loc_advance st0
      show st3.loc - 4 + 1 ≤ st3.loc
      omega
  | unknown =>
    rw [hc] at h
    simp only at h
    rw [← Except.error.inj h]
    show (advance st0).loc + 1 ≤ (advance st0).loc + 1
    exact le_refl _

theorem eatStringLoopF_loc (fuel : Nat) (st : LexState) :
    st.loc ≤ (eatStringLoopF fuel st).2.loc := by
  induction fuel generalizing st with
  | zero => exact le_refl _
  | succ n ih =>
    rw [eatStringLoopF]
    split
    · exact le_refl _
    · split
      · exact le_refl _
      · split
        · split
          · next c st2 heq =>
            have h1 := eatEscape_loc st
            rw [heq] at h1
            have h1' : st.loc ≤ st2.loc := h1
            exact h1'.trans (ih (pushScannedString c st2))
          · next e st2 heq =>
            have h1 := eatEscape_loc st
            rw [heq] at h1
            exact h1
        · exact (loc_le_advance st).trans (ih (pushScannedString (cur st) (advance st)))

theorem eatStringLoop_loc (st : LexState) :
    st.loc ≤ (eatStringLoop st).2.loc :=
  eatStringLoopF_loc _ st

theorem eatStringLoopF_some_span (fuel : Nat) (st : LexState) {e : LexError}
    (h : (eatStringLoopF fuel st).1 = some e) :
    e.span.start + 1 ≤ e.span.stop := by
  induction fuel generalizing st with
  | zero => simp [eatStringLoopF] at h
  | succ n ih =>
    rw [eatStringLoopF] at h
    split at h
    · simp at h
    · split at h
      · simp at h
      · split at h
        · split at h
          · next c st2 heq => exact ih (pushScannedString c st2) h
          · next e2 st2 heq =>
            simp only at h
            have h2 : (eatEscape st).1 = .error e2 := by rw [heq]
            rw [show e2 = e from Option.some.inj h] at h2
            exact eatEscape_err_span st h2
        · exact ih (pushScannedString (cur st) (advance st)) h

theorem eatStringLoop_some_span {st : LexState} {e : LexError}
    (h : (eatStringLoop st).1 = some e) :
    e.span.start + 1 ≤ e.span.stop :=
  eatStringLoopF_some_span _ st h

theorem eatString_span (st0 : LexState) :
    (eatString st0).1.span.start + 1 ≤ (eatString st0).1.span.stop := by
  unfold eatString
  split
  · next e st2 heq =>
    show e.span.start + 1 ≤ e.span.stop
    exact eatStringLoop_some_span (by rw [heq])
  · next st1 heq =>
    have h1 : (advance { st0 with scannedString := [] }).loc ≤ st1.loc := by
      have := eatStringLoop_loc (advance { st0 with scannedString := [] })
      rw [heq] at this
      exact this
    have h2 : st0.loc + 1 ≤ (advance { st0 with scannedString := [] }).loc :=
      loc_advance _
    split
    · show st0.loc + 1 ≤ st1.loc
      omega
    · show st0.loc + 1 ≤ (advance st1).loc
      have h3 := loc_advance st1
      omega

theorem eatCharLoopF_loc (sl fuel : Nat) (st : LexState) (size : Nat) :
    st.loc ≤ (charLoopState (eatCharLoopF sl fuel st size)).loc := by
  induction fuel generalizing st size with
  | zero => exact le_refl _
  | succ n ih =>
    rw [eatCharLoopF]
    split
    · exact le_refl _
    · split
      · exact le_refl _
      · split
        · split
          · next c st2 heq =>
            have h1 := eatEscape_loc st
            rw [heq] at h1
            have h1' : st.loc ≤ st2.loc := h1
            exact h1'.trans (ih (setScannedChar c st2) (size + 1))
          · next e st2 heq =>
            have h1 := eatEscape_loc st
            rw [heq] at h1
            exact h1
        · exact (loc_le_advance st).trans
            (ih (setScannedChar (cur st) (advance st)) (size + 1))

theorem eatCharLoopF_err_span (sl : Nat) : ∀ (fuel : Nat) (st : LexState)
    (size : Nat) (t : Token) (st' : LexState),
    sl + 1 ≤ st.loc →
    eatCharLoopF sl fuel st size = .error (t, st') →
    t.span.start + 1 ≤ t.span.stop := by
  intro fuel
  induction fuel with
  | zero =>
    intro st size t st' _ h
    simp [eatCharLoopF] at h
  | succ n ih =>
    intro st size t st' hstart h
    rw [eatCharLoopF] at h
    split at h
    · simp at h
    · split at h
      · simp only [Except.error.injEq, Prod.mk.injEq] at h
        rw [← h.1]
        show sl + 1 ≤ st.loc
        exact hstart
      · split at h
        · split at h
          · next c st2 heq =>
            have h1 := eatEscape_loc st
            rw [heq] at h1
            have h1' : st.loc ≤ st2.loc := h1
            exact ih (setScannedChar c st2) (size + 1) t st'
              (hstart.trans h1') h
          · next e st2 heq =>
            simp only [Except.error.injEq, Prod.mk.injEq] at h
            have h2 : (eatEscape st).1 = .error e := by rw [heq]
            have h3 := eatEscape_err_span st h2
            rw [← h.1]
            exact h3
        · have h1 := loc_advance st
          exact ih (setScannedChar (cur st) (advance st)) (size + 1) t st'
            (by show sl + 1 ≤ (advance st).loc; omega) h

theorem eatCharLit_span (st0 : LexState) :
    (eatCharLit st0).1.span.start + 1 ≤ (eatCharLit st0).1.span.stop := by
  unfold eatCharLit
  split
  · next ts heq =>
    obtain ⟨t, s⟩ := ts
    exact eatCharLoopF_err_span st0.loc _ (advance st0) 0 t s
      (loc_advance st0) heq
  · next st1 size heq =>
    have h1 : (advance st0).loc ≤ st1.loc := by
      have h0 : (advance st0).loc ≤
          (charLoopState (eatCharLoop st0.loc (advance st0) 0)).loc :=
        eatCharLoopF_loc st0.loc ((advance st0).rest.length + 1)
          (advance st0) 0
      rw [heq] at h0
      exact h0
    have h2 := loc_advance st0
    have h3 := loc_advance st1
    split
    · show st0.loc + 1 ≤ (advance st1).loc
      omega
    · split
      · show st0.loc + 1 ≤ (advance st1).loc
        omega
      · show st0.loc + 1 ≤ (advance st1).loc
        omega

theorem eatWrappedId_span (st0 : LexState) :
    (eatWrappedId st0).1.span.start + 1 ≤ (eatWrappedId st0).1.span.stop := by
  have h1 := loc_advance st0
  have h2 := advanceWhile_loc (fun c _ => c.isAlphanum || c = Char.ofNat 95)
    (advance st0)
  simp only [eatWrappedId]
  split
  · show st0.loc + 1 ≤
      (advanceWhile (fun c _ => c.isAlphanum || c = Char.ofNat 95)
        (advance st0)).2.loc
    omega
  · split
    · show st0.loc + 1 ≤
        (advanceWhile (fun c _ => c.isAlphanum || c = Char.ofNat 95)
          (advance st0)).2.loc
      omega
    · have h3 := loc_le_advance
        (advanceWhile (fun c _ => c.isAlphanum || c = Char.ofNat 95)
          (advance st0)).2
      show st0.loc + 1 ≤
        (advance (advanceWhile (fun c _ => c.isAlphanum || c = Char.ofNat 95)
          (advance st0)).2).loc
      omega

theorem eatComment_span (st : LexState) :
    (eatComment st).1.span.start + 1 ≤ (eatComment st).1.span.stop := by
  have h1 := loc_advance st
  have h2 := advanceWhile_loc (fun c _ => c ≠ lf) (advance st)
  show st.loc - 1 + 1 ≤ (advanceWhile (fun c _ => c ≠ lf) (advance st)).2.loc
  omega

theorem eatDocComment_span (g : Bool) (st : LexState) :
    (eatDocComment g st).1.span.start + 1 ≤ (eatDocComment g st).1.span.stop := by
  have h1 := loc_advance st
  have h1b := loc_advance (advance st)
  have h2 := advanceWhile_loc (fun c _ => c ≠ lf) (advance (advance st))
  show st.loc - 1 + 1 ≤
    (advanceWhile (fun c _ => c ≠ lf) (advance (advance st))).2.loc
  omega

theorem eatSlashSlash_span (st : LexState) :
    (eatSlashSlash st).1.span.start + 1 ≤ (eatSlashSlash st).1.span.stop := by
  unfold eatSlashSlash
  split
  · exact eatDocComment_span true (advance st)
  · split
    · exact eatDocComment_span false (advance st)
    · exact eatComment_span (advance st)

theorem eatName_span (st : LexState) (hstart : isIdStart (cur st) = true) :
    (eatName st).1.span.start + 1 ≤ (eatName st).1.span.stop := by
  have hne : cur st ≠ NUL := isIdStart_ne_NUL hstart
  have hs : st.loc + 1 ≤ (advanceWhile (fun c _ => isIdContinue c) st).2.loc :=
    advanceWhile_loc_strict (isIdStart_isIdContinue hstart) hne
  simp only [eatName]
  split
  · exact hs
  · exact hs

theorem eatNumber_span (st : LexState)
    (hnum : decimal (cur st) = true ∨
      (cur st = Char.ofNat 46 ∧ decimal (nxt st) = true)) :
    (eatNumber st).1.span.start + 1 ≤ (eatNumber st).1.span.stop := by
  rcases hnum with hd | ⟨hdot, hnx⟩
  · have hne : cur st ≠ NUL := by
      intro he
      rw [he] at hd
      exact absurd hd (by decide)
    have hs : st.loc + 1 ≤ (advanceWhile (fun c _ => decimal c) st).2.loc :=
      advanceWhile_loc_strict hd hne
    have hA := loc_le_advance (advanceWhile (fun c _ => decimal c) st).2
    have hB := advanceWhile_loc (fun c _ => decimal c)
      (advance (advanceWhile (fun c _ => decimal c) st).2)
    have hC := loc_le_advance (advanceWhile (fun c _ => decimal c)
      (advance (advanceWhile (fun c _ => decimal c) st).2)).2
    simp only [eatNumber]
    split
    · split
      · show st.loc + 1 ≤ (advance (advanceWhile (fun c _ => decimal c)
          (advance (advanceWhile (fun c _ => decimal c) st).2)).2).loc
        omega
      · show st.loc + 1 ≤ (advanceWhile (fun c _ => decimal c)
          (advance (advanceWhile (fun c _ => decimal c) st).2)).2.loc
        omega
    · split
      · show st.loc + 1 ≤ (advance (advanceWhile (fun c _ => decimal c) st).2).loc
        omega
      · exact hs
  · have hr1 : advanceWhile (fun c _ => decimal c) st = ([], st) := by
      refine advanceWhile_neg ?_
      intro hcon
      have hcd : decimal (cur st) = true := hcon.1
      rw [hdot] at hcd
      exact absurd hcd (by decide)
    have h1 := loc_advance st
    have h2 := advanceWhile_loc (fun c _ => decimal c) (advance st)
    have h3 := loc_le_advance (advanceWhile (fun c _ => decimal c) (advance st)).2
    simp only [eatNumber, hr1]
    rw [if_pos ⟨hdot, hnx⟩]
    split
    · show st.loc + 1 ≤
        (advance (advanceWhile (fun c _ => decimal c) (advance st)).2).loc
      omega
    · show st.loc + 1 ≤ (advanceWhile (fun c _ => decimal c) (advance st)).2.loc
      omega

theorem advanceWith_span (raw : RawToken) (st : LexState) :
    (advanceWith raw st).1.span.start + 1 ≤ (advanceWith raw st).1.span.stop := by
  show st.loc + 1 ≤ st.loc + 1
  exact le_refl _

theorem advanceTwiceWith_span (raw : RawToken) (st : LexState) :
    (advanceTwiceWith raw st).1.span.start + 1 ≤
      (advanceTwiceWith raw st).1.span.stop := by
  show st.loc + 1 ≤ st.loc + 2
  omega

theorem nextTokenD_span (st : LexState) :
    (nextTokenD st).1.span.start + 1 ≤ (nextTokenD st).1.span.stop := by
  unfold nextTokenD
  cases dispatch (cur st) (nxt st) with
  | punct1 p => exact advanceWith_span _ st
  | punct2 p hn => exact advanceTwiceWith_span _ st
  | strLit => exact eatString_span st
  | charLit => exact eatCharLit_span st
  | wrappedId => exact eatWrappedId_span st
  | slashSlash hs => exact eatSlashSlash_span st
  | number hn => exact eatNumber_span st hn
  | name hn => exact eatName_span st hn
  | errTok => exact advanceWith_span _ st

end RyLexer

section ClaimC10

open RyLexer

/-- **C10**: every token returned by `Lexer::next_token` — error tokens
and the `EndOfFile` sentinel included — has a non-empty, well-ordered
span: `span.end ≥ span.start + 1`, from every lexer state (hence on
every path through the scanner). -/
theorem c10_token_spans_nonempty (st0 : LexState) :
    (nextToken st0).1.span.start + 1 ≤ (nextToken st0).1.span.stop := by
  unfold nextToken
  split
  · show (eatWhitespaces st0).loc + 1 ≤ (eatWhitespaces st0).loc + 1
    exact le_refl _
  · exact nextTokenD_span (eatWhitespaces st0)

end ClaimC10
